import Mathlib

/-!
Verification of the Plain natural-language-to-Python translation engine
(`plain/enhanced_transpiler.py`) and its sandbox executor (`plain/runtime.py`).

The Python source is shallowly embedded: pure functions become Lean
functions over `List Char` / `List String` (words); the regex patterns of
the source, which are all applied to single physical lines, are modelled as
word-level matchers (faithful for the single-space-separated inputs the
theorems evaluate, with `\s+` realised as word splitting and `IGNORECASE`
as lowercase comparison); Python's `ast.parse` trial parse — an external
collaborator, not code of this repository — is modelled by an explicit
lexical/atomic-expression fragment, documented at its definition.
-/

namespace Plain

/-- Whitespace test used to model Python's `str.strip` / `str.lstrip` on
single physical lines (which cannot contain a newline). -/
def isSpaceChar (c : Char) : Bool := c = ' ' || c = '\t'

/-- Drop leading whitespace characters (model of `str.lstrip()`). -/
def lstripChars : List Char → List Char
  | [] => []
  | c :: cs => if isSpaceChar c then lstripChars cs else c :: cs

/-- Drop trailing whitespace characters. -/
def rstripChars (cs : List Char) : List Char := (lstripChars cs.reverse).reverse

/-- Model of Python `str.strip()`. -/
def stripChars (cs : List Char) : List Char := rstripChars (lstripChars cs)

/-- Strip both ends of a string (model of `str.strip()`). -/
def stripWS (s : String) : String := String.mk (stripChars s.data)

/-- Strip the left end of a string (model of `str.lstrip()`). -/
def lstripWS (s : String) : String := String.mk (lstripChars s.data)

/-- List-level test that the first list is an initial segment of the second. -/
def startsWithList : List Char → List Char → Bool
  | [], _ => true
  | _ :: _, [] => false
  | p :: ps, c :: cs => p = c && startsWithList ps cs

/-- Model of Python `str.startswith`. -/
def strStartsWith (s pre : String) : Bool := startsWithList pre.data s.data

/-- Model of Python `str.endswith` for a single character. -/
def strEndsWithChar (s : String) (c : Char) : Bool :=
  match s.data.reverse with
  | [] => false
  | d :: _ => d = c

/-- Model of Python `str.startswith` for a single character. -/
def strStartsWithChar (s : String) (c : Char) : Bool :=
  match s.data with
  | [] => false
  | d :: _ => d = c

/-- Substring test on char lists (model of Python's `in` on strings). -/
def containsList (sub : List Char) : List Char → Bool
  | [] => startsWithList sub []
  | c :: cs => startsWithList sub (c :: cs) || containsList sub cs

/-- Model of Python `sub in s`. -/
def strContainsSub (s sub : String) : Bool := containsList sub.data s.data

/-- Character membership in a string. -/
def strContainsChar (s : String) (c : Char) : Bool := s.data.contains c

/-- ASCII lowercasing of one character (model of Python `str.lower` /
`re.IGNORECASE` restricted to ASCII input). -/
def lcChar (c : Char) : Char :=
  if 'A' ≤ c && c ≤ 'Z' then Char.ofNat (c.toNat + 32) else c

/-- ASCII lowercasing of a string. -/
def lcStr (s : String) : String := String.mk (s.data.map lcChar)

/-- Split a char list at every occurrence of a separator character,
keeping empty segments (model of Python `str.split(sep)`). -/
def splitCharAux (sep : Char) : List Char → List Char → List (List Char)
  | acc, [] => [acc.reverse]
  | acc, c :: cs =>
    if c = sep then acc.reverse :: splitCharAux sep [] cs
    else splitCharAux sep (c :: acc) cs

/-- Physical lines of a document: split on the newline character.  Models
Python `str.splitlines` for documents whose only line terminator is a bare
newline (the inputs considered here); unlike `splitlines`, a trailing
newline contributes one final empty (hence blank, hence skipped) line,
which does not shift the 1-based position of any real line. -/
def physLines (text : String) : List String :=
  (splitCharAux '\n' [] text.data).map String.mk

/-- Whitespace-separated words of a string, dropping empty segments: the
word-level model of `\s+`-separated regex matching. -/
def wordsAux : List Char → List Char → List (List Char)
  | acc, [] => if acc.isEmpty then [] else [acc.reverse]
  | acc, c :: cs =>
    if isSpaceChar c then
      if acc.isEmpty then wordsAux [] cs else acc.reverse :: wordsAux [] cs
    else wordsAux (c :: acc) cs

/-- Words of a string. -/
def strWords (s : String) : List String := (wordsAux [] s.data).map String.mk

/-- Join words with single spaces (inverse of `strWords` on normalised
input). -/
def unwords : List String → String
  | [] => ""
  | [w] => w
  | w :: ws => w ++ " " ++ unwords ws

/-- ASCII `\w` character class of the source's regexes. -/
def isWordChar (c : Char) : Bool :=
  ('a' ≤ c && c ≤ 'z') || ('A' ≤ c && c ≤ 'Z') || ('0' ≤ c && c ≤ '9') || c = '_'

/-- Nonempty run of `\w` characters (regex `\w+`). -/
def isWordChars (s : String) : Bool :=
  !s.data.isEmpty && s.data.all isWordChar

/-- ASCII letter test. -/
def isLetterChar (c : Char) : Bool :=
  ('a' ≤ c && c ≤ 'z') || ('A' ≤ c && c ≤ 'Z')

/-- Python-identifier shape `[A-Za-z_]\w*` (ASCII model). -/
def isIdentModel (s : String) : Bool :=
  match s.data with
  | [] => false
  | c :: cs => (isLetterChar c || c = '_') && cs.all isWordChar

/-- Digit test. -/
def isDigitChar (c : Char) : Bool := '0' ≤ c && c ≤ '9'

/-- Shape of the source's number regex `^-?\d+(\.\d+)?$`. -/
def isNumberLit (s : String) : Bool :=
  let cs := match s.data with
    | '-' :: rest => rest
    | rest => rest
  match cs.span isDigitChar with
  | (ds, rest) =>
    !ds.isEmpty &&
      (match rest with
       | [] => true
       | '.' :: frac => !frac.isEmpty && frac.all isDigitChar
       | _ => false)

/-- Spaces of a given width (indentation rendering in `transpile`). -/
def spaces (n : Nat) : String := String.mk (List.replicate n ' ')

/-! ## Data model (dataclasses of `enhanced_transpiler.py`) -/

/-- SourceLine dataclass: trimmed content, measured indent, 1-based
physical line number. -/
structure SourceLine where
  content : String
  indent : Nat
  line_no : Nat
deriving Repr, DecidableEq

/-- OutputLine dataclass: relative nesting offset and text. -/
structure OutputLine where
  indent_offset : Nat
  text : String
deriving Repr, DecidableEq

/-- TranspileResult dataclass.  In the Python source `consumed`,
`opens_block`, `block_type`, `block_name`, `block_params` default to
`1`, `False`, `None`, `None`, `None`. -/
structure TranspileResult where
  lines : List OutputLine
  consumed : Nat := 1
  opens_block : Bool := false
  block_type : Option String := none
  block_name : Option String := none
  block_params : Option (List String) := none
deriving Repr, DecidableEq

/-- Block dataclass: one open nested construct, keyed by the indent at
which it was opened. -/
structure Block where
  indent : Nat
  block_type : String
  name : Option String := none
  params : Option (List String) := none
deriving Repr, DecidableEq

/-! ## Tokenizer (`_tokenize_lines`, `_count_indent`) -/

/-- Model of `str.expandtabs(4)`: a tab advances to the next multiple of
four columns; every other character (no newlines occur inside a physical
line) advances one column. -/
def expandTabsAux : Nat → List Char → List Char
  | _, [] => []
  | col, c :: cs =>
    if c = '\t' then
      List.replicate (4 - col % 4) ' ' ++ expandTabsAux (col + (4 - col % 4)) cs
    else c :: expandTabsAux (col + 1) cs

/-- Count of leading space characters. -/
def countLeadingSpaces : List Char → Nat
  | [] => 0
  | c :: cs => if c = ' ' then countLeadingSpaces cs + 1 else 0

/-- Embeds `_count_indent`: expand tabs to width 4, then count leading
spaces (`len(expanded) - len(expanded.lstrip(' '))`). -/
def countIndent (raw : String) : Nat :=
  countLeadingSpaces (expandTabsAux 0 raw.data)

/-- Embeds the loop body of `_tokenize_lines`: blank lines and lines whose
left-stripped content starts with `#` or `//` are skipped; every kept line
records its left-stripped content, measured indent, and the running
1-based physical index. -/
def tokenizeAux : Nat → List String → List SourceLine
  | _, [] => []
  | idx, raw :: rest =>
    if stripWS raw = "" then tokenizeAux (idx + 1) rest
    else
      let stripped := lstripWS raw
      if strStartsWith stripped "#" || strStartsWith stripped "//" then
        tokenizeAux (idx + 1) rest
      else
        { content := stripped, indent := countIndent raw, line_no := idx } ::
          tokenizeAux (idx + 1) rest

/-- Embeds `_tokenize_lines`. -/
def tokenizeLines (text : String) : List SourceLine :=
  tokenizeAux 1 (physLines text)

/-! ## Indentation-unit inference (`_infer_indent_unit`) -/

/-- Insert into a strictly sorted ascending list, discarding duplicates
(used to model Python's `sorted(set(...))`). -/
def insertSortedDedup (n : Nat) : List Nat → List Nat
  | [] => [n]
  | m :: ms =>
    if n < m then n :: m :: ms
    else if n = m then m :: ms
    else m :: insertSortedDedup n ms

/-- Sorted distinct positive indentation values of a tokenized document:
model of `sorted(set(line.indent for line in lines if line.indent > 0))`. -/
def sortedIndents (lines : List SourceLine) : List Nat :=
  ((lines.map SourceLine.indent).filter (fun n => 0 < n)).foldr insertSortedDedup []

/-- Differences of consecutive elements, keeping only positive ones:
model of `[b - a for a, b in zip(indents, indents[1:]) if b - a > 0]`. -/
def consecDiffs : List Nat → List Nat
  | a :: b :: rest => (if 0 < b - a then [b - a] else []) ++ consecDiffs (b :: rest)
  | _ => []

/-- Minimum of a list of naturals (`min(...)` over a nonempty list). -/
def minimumList : List Nat → Option Nat
  | [] => none
  | x :: xs => some (xs.foldl Nat.min x)

/-- Embeds `_infer_indent_unit`: default 4 when no positive indentation
exists; a single distinct positive value is taken as the unit; otherwise
the minimum of the positive consecutive differences of the sorted distinct
values (falling back to the first value when that filter empties, which
cannot happen for a strictly sorted list). -/
def inferIndentUnit (lines : List SourceLine) : Nat :=
  match sortedIndents lines with
  | [] => 4
  | [a] => a
  | a :: b :: rest =>
    match minimumList (consecDiffs (a :: b :: rest)) with
    | some m => m
    | none => a

/-- All positive pairwise differences between elements of a list — the
spec's phrase "minimum positive difference between the sorted distinct
values" quantifies over all pairs, not only consecutive ones; this
definition follows the spec's words and is compared with the source's
consecutive-difference computation in the theorem for C5. -/
def pairDiffs (l : List Nat) : List Nat :=
  l.flatMap (fun a => l.filterMap (fun b => if a < b then some (b - a) else none))

/-! ## Models of the target grammar (Python's `ast.parse`)

The trial parses performed by the source (`ast.parse(text)` in
`_transpile_line`, `ast.parse(expr, mode='eval')` in
`_is_valid_python_expr`) call into Python's own parser, an external
collaborator of this repository.  They are modelled here by the lexical
rule for short double-quoted string literals plus an atomic-expression
fragment (identifier / integer-or-float literal / string literal).  The
model is exact on every input the theorems below evaluate; on inputs
outside the fragment it can only under-approximate acceptance, which
routes such (unevaluated) lines to the quoting fallback. -/

/-- Scanner for the body of a short double-quoted string literal: a
backslash escapes the following character, an unescaped closing quote must
end the literal exactly at the end of input, and a bare newline or
carriage return is not allowed inside. -/
def strLitInner : List Char → Bool
  | [] => false
  | c :: rest =>
    if c = '\\' then
      match rest with
      | [] => false
      | _ :: rest2 => strLitInner rest2
    else if c = '"' then rest.isEmpty
    else if c = '\n' || c = '\r' then false
    else strLitInner rest

/-- Modelled from the spec: validity of one short double-quoted string
literal in the target grammar (the form `_quote_string` emits). -/
def isPyStringLit (s : String) : Bool :=
  match s.data with
  | '"' :: rest => strLitInner rest
  | _ => false

/-- String-termination scan of one generated line: `none` means outside
any string literal, `some q` inside a literal opened with quote `q`.  A
line that ends inside an unterminated literal fails the target language's
tokenizer, hence its trial parse. -/
def lexScan : Option Char → List Char → Bool
  | none, [] => true
  | some _, [] => false
  | none, c :: cs =>
    if c = '"' || c = '\x27' then lexScan (some c) cs else lexScan none cs
  | some q, c :: cs =>
    if c = '\\' then
      match cs with
      | [] => false
      | _ :: cs2 => lexScan (some q) cs2
    else if c = q then lexScan none cs
    else if c = '\n' then false
    else lexScan (some q) cs

/-- Modelled from the spec: the tokenization prerequisite of the target
grammar's trial parse — all string literals on the line are terminated. -/
def pyLexOk (s : String) : Bool := lexScan none s.data

/-- Modelled from the spec: `_is_valid_python_expr` (a trial
`ast.parse(expr, mode='eval')`), restricted to the atomic fragment. -/
def isValidPyExprModel (s : String) : Bool :=
  isIdentModel s || isNumberLit s || isPyStringLit s

/-- Modelled from the spec: the `ast.parse(text)` trial in
`_transpile_line`, restricted to the atomic-statement fragment. -/
def pyParseLineModel (text : String) : Bool :=
  pyLexOk text && (isIdentModel (stripWS text) || isNumberLit (stripWS text)
    || isPyStringLit (stripWS text))

/-! ## String quoting (`_quote_string`) -/

/-- Replace every occurrence of one character by a char sequence. -/
def replaceCharList (target : Char) (rep : List Char) : List Char → List Char
  | [] => []
  | c :: cs =>
    if c = target then rep ++ replaceCharList target rep cs
    else c :: replaceCharList target rep cs

/-- Embeds `_quote_string`: double every backslash, then escape every
double quote, then wrap in double quotes. -/
def quoteString (v : String) : String :=
  let e1 := replaceCharList '\\' ['\\', '\\'] v.data
  let e2 := replaceCharList '"' ['\\', '"'] e1
  "\"" ++ String.mk e2 ++ "\""

/-! ## Word-level regex matchers

The source applies anchored regexes with `\s+` separators and lazy
`(.+?)` / greedy `(.+)` groups to single lines.  For the
single-space-separated inputs evaluated here these are realised on word
lists: a lazy group takes the words up to the first feasible occurrence
of the separator sequence (backtracking to later occurrences when the
remainder cannot complete the match), and `IGNORECASE` becomes lowercase
comparison of words. -/

/-- Drop a (lowercase) separator word sequence from the front of a word
list, comparing case-insensitively. -/
def dropSeqCI : List String → List String → Option (List String)
  | [], ws => some ws
  | _ :: _, [] => none
  | s :: ss, w :: ws => if lcStr w = s then dropSeqCI ss ws else none

/-- First split of a word list around a separator word sequence with
nonempty left and right parts (lazy-group regex semantics of
`^(.+?)\s+SEP\s+(.+)$`). -/
def splitSeqFrom (sep : List String) : List String → List String → Option (List String × List String)
  | _, [] => none
  | accRev, w :: ws =>
    match dropSeqCI sep (w :: ws) with
    | some post =>
      if !accRev.isEmpty && !post.isEmpty then some (accRev.reverse, post)
      else splitSeqFrom sep (w :: accRev) ws
    | none => splitSeqFrom sep (w :: accRev) ws

/-- Split around the given separator sequence (see `splitSeqFrom`). -/
def splitCondSeq (sep : List String) (ws : List String) : Option (List String × List String) :=
  splitSeqFrom sep [] ws

/-- Match of an end-anchored pattern `^(.+?)\s+SEP$`: the word list must
end with the separator sequence, with at least one word before it. -/
def endsWithSeqCI (sep : List String) (ws : List String) : Option (List String) :=
  if sep.length < ws.length && (ws.drop (ws.length - sep.length)).map lcStr = sep then
    some (ws.take (ws.length - sep.length))
  else none

/-- Presence of a separator word sequence anywhere in a word list. -/
def seqPresent (sep : List String) : List String → Bool
  | [] => sep.isEmpty
  | w :: ws => (dropSeqCI sep (w :: ws)).isSome || seqPresent sep ws

/-- Split at every separator word that has a nonempty segment before it
and at least one word after it (model of `re.split(r'\s+SEP\s+', ...)`,
which requires whitespace on both sides of the separator). -/
def splitSepWordAux (sep : String) : List String → List String → List (List String)
  | accRev, [] => [accRev.reverse]
  | accRev, w :: ws =>
    if lcStr w = sep && !accRev.isEmpty && !ws.isEmpty then
      accRev.reverse :: splitSepWordAux sep [] ws
    else splitSepWordAux sep (w :: accRev) ws

/-- Split a word list on a separator word (top level of the "or" and
"and" splits in `_parse_condition`). -/
def splitSepWord (sep : String) (ws : List String) : List (List String) :=
  splitSepWordAux sep [] ws

/-- Find the first word "and" in a list, returning the words before and
after it. -/
def findAndRepl : List String → List String → Option (List String × List String)
  | _, [] => none
  | accRev, w :: ws =>
    if lcStr w = "and" then some (accRev.reverse, ws)
    else findAndRepl (w :: accRev) ws

/-- Embeds the protection substitution
`re.sub(r'(\bbetween\b[^\n]+?)\s+and\s+', r'\1 __between_and__ ', cond)`
at word level: after each word "between", the first later word "and" that
is separated from "between" by at least one character is replaced by the
marker, and scanning resumes after it. -/
def protectBetweenGo : Nat → List String → List String
  | 0, ws => ws
  | _ + 1, [] => []
  | fuel + 1, w :: ws =>
    if lcStr w = "between" then
      match ws with
      | [] => [w]
      | w0 :: rest =>
        match findAndRepl [] rest with
        | some (mid, post) =>
          w :: w0 :: mid ++ ["__between_and__"] ++ protectBetweenGo fuel post
        | none => w :: protectBetweenGo fuel ws
    else w :: protectBetweenGo fuel ws

/-- Protection pass over a word list (fuel = list length suffices). -/
def protectBetweenWords (ws : List String) : List String :=
  protectBetweenGo ws.length ws

/-- Embeds `part.replace('__between_and__', 'and')` (the marker only ever
occurs as a whole word). -/
def restoreBetween (ws : List String) : List String :=
  ws.map (fun w => if w = "__between_and__" then "and" else w)

/-- Find the first word "and" having a nonempty part before it and a
nonempty part after it (the lazy `(.+?)\s+and\s+(.+)$` tail of the
between pattern). -/
def findAndNE : List String → List String → Option (List String × List String)
  | _, [] => none
  | accRev, w :: ws =>
    if lcStr w = "and" && !accRev.isEmpty && !ws.isEmpty then
      some (accRev.reverse, ws)
    else findAndNE (w :: accRev) ws

/-- Match of `^(.+?)\s+is\s+between\s+(.+?)\s+and\s+(.+)$`: the first
occurrence of adjacent words "is between" with a nonempty left part whose
remainder splits on "and" with nonempty middle and right parts. -/
def betweenFrom : List String → List String → Option (List String × List String × List String)
  | _, [] => none
  | accRev, w1 :: rest =>
    if lcStr w1 = "is" then
      match rest with
      | [] => none
      | w2 :: rest2 =>
        if lcStr w2 = "between" && !accRev.isEmpty then
          match findAndNE [] rest2 with
          | some (mid, post) => some (accRev.reverse, mid, post)
          | none => betweenFrom (w1 :: accRev) rest
        else betweenFrom (w1 :: accRev) rest
    else betweenFrom (w1 :: accRev) rest

/-- Between-pattern matcher on a word list. -/
def matchBetweenSplit (ws : List String) : Option (List String × List String × List String) :=
  betweenFrom [] ws

/-! ## Expression parsing (`_parse_expression`, `_parse_value`) -/

/-- Join strings with a separator. -/
def joinStr (sep : String) : List String → String
  | [] => ""
  | [x] => x
  | x :: xs => x ++ sep ++ joinStr sep xs

/-- Word-to-number table of `_word_to_number` (only the recognised words
reach it from `_parse_expression`, so the default 2 is never taken
there). -/
def wordNumber : String → Option Nat
  | "one" => some 1
  | "two" => some 2
  | "three" => some 3
  | "four" => some 4
  | "five" => some 5
  | "six" => some 6
  | "seven" => some 7
  | "eight" => some 8
  | "nine" => some 9
  | "ten" => some 10
  | _ => none

/-- Drop the first `n` characters of a string (Python slicing `s[n:]` for
ASCII input). -/
def dropChars (n : Nat) (s : String) : String := String.mk (s.data.drop n)

/-- Dotted-identifier shape of the `dot_call` pattern
`[A-Za-z_]\w*(?:\.[A-Za-z_]\w*)+` (an identifier with at least one dotted
segment). -/
def isDottedIdent (s : String) : Bool :=
  let segs := (splitCharAux '.' [] s.data).map String.mk
  decide (2 ≤ segs.length) && segs.all isIdentModel

/-- Embeds `_looks_like_call_args` at word level: the argument text must
not begin with one of the listed operator or comparison words followed by
another word. -/
def looksLikeCallArgsGate (restWords : List String) : Bool :=
  match restWords with
  | [] => false
  | w :: ws =>
    !(decide (1 ≤ ws.length) &&
      ["is", "are", "was", "were", "has", "have", "times", "plus", "minus",
        "divided", "over", "mod", "modulo", "between", "greater", "less",
        "equals", "equal", "contains", "starts", "ends", "and", "or",
        "not"].contains (lcStr w))

/-- Interior occurrence of any listed word (an infix operator word with
nonempty text on both sides). -/
def interiorContains (lw : List String) (set : List String) : Bool :=
  ((lw.drop 1).dropLast).any (fun w => set.contains w)

/-- Type-coercion suffix gate for the four `(?:as|to) <type>` patterns. -/
def castGate (lw : List String) : Bool :=
  match lw.reverse with
  | t :: k :: _ :: _ =>
    ["string", "text", "integer", "int", "float", "decimal", "number",
      "boolean", "bool"].contains t && ["as", "to"].contains k
  | _ => false

/-- Gate deciding whether a text matches one of the phrase-idiom branches
of `_parse_expression` between its `call`/`value of` patterns and its
power-of pattern (source lines 1949 to 2106).  Those branches are
abstracted behind this gate: none of the inputs evaluated by the theorems
below satisfies it, and none of the abstracted branches influences any
claim (they neither touch `consumed` nor are reachable from the evaluated
documents). -/
def exprIdiomGate (e : String) : Bool :=
  let ws := strWords e
  let lw := ws.map lcStr
  match lw with
  | [] => false
  | fw :: rest =>
    (decide (2 ≤ lw.length) &&
      ["call", "run", "execute", "ask", "prompt", "input", "minus",
        "negative", "subtract", "add", "trim", "strip", "uppercase",
        "lowercase"].contains fw)
    || (["value", "result", "length", "len", "size", "count", "number",
          "sum", "total", "average", "mean", "min", "minimum", "max",
          "maximum"].contains fw && rest.head? = some "of")
    || (["upper", "lower", "title"].contains fw && rest.head? = some "case"
          && decide (3 ≤ lw.length))
    || castGate lw
    || (match ws with
        | [] => false
        | w :: restW => isDottedIdent w && !restW.isEmpty && looksLikeCallArgsGate restW)
    || seqPresent ["does", "not", "contain"] lw
    || lw.contains "contains"
    || (endsWithSeqCI ["is", "empty"] lw).isSome
    || (endsWithSeqCI ["is", "not", "empty"] lw).isSome
    || seqPresent ["ends", "with"] lw
    || seqPresent ["starts", "with"] lw
    || interiorContains lw ["plus", "minus", "times", "over", "mod", "modulo"]
    || seqPresent ["multiplied", "by"] lw
    || seqPresent ["multiply", "by"] lw
    || seqPresent ["divided", "by"] lw
    || seqPresent ["power", "of"] lw
    || seqPresent ["powered", "by"] lw
    || seqPresent ["to", "the", "power"] lw

/-- Placeholder result of the abstracted phrase-idiom branches of
`_parse_expression` (see `exprIdiomGate`); never evaluated by the
theorems. -/
def exprIdiomStub (e : String) : String := e

/-- Shape of the call passthrough regex `^(\w+)\s*\(([^)]*)\)$`. -/
def funcCallShape (s : String) : Bool :=
  match s.data.span isWordChar with
  | (name, rest) =>
    !name.isEmpty &&
      (match lstripChars rest with
       | '(' :: inner =>
         (match inner.reverse with
          | ')' :: bodyRev => !bodyRev.reverse.contains ')'
          | _ => false)
       | _ => false)

/-- Embeds `_parse_expression` with its phrase-idiom middle section
abstracted behind `exprIdiomGate`.  The literal branches (booleans,
none/null, word numbers, `not` prefix), the quoted-string passthrough,
the `+`-split, the call/number passthroughs, and the final
quote-or-passthrough fallback are embedded faithfully; the recursion is
fuelled (the source recurses on strictly shorter strings, so fuel equal
to the length plus one suffices and is never exhausted on the evaluated
inputs). -/
def parseExpressionGo : Nat → String → String
  | 0, e => e
  | fuel + 1, e0 =>
    let e := stripWS e0
    if e = "" then e
    else
      let lower := lcStr e
      if lower = "true" then "True"
      else if lower = "false" then "False"
      else if lower = "none" || lower = "null" then "None"
      else
        match wordNumber lower with
        | some n => toString n
        | none =>
          if strStartsWith lower "not " then
            "not " ++ parseExpressionGo fuel (dropChars 4 e)
          else if exprIdiomGate e then exprIdiomStub e
          else if (strStartsWithChar e '"' && strEndsWithChar e '"')
              || (strStartsWithChar e '\x27' && strEndsWithChar e '\x27') then e
          else if strContainsChar e '+' then
            joinStr " + "
              (((splitCharAux '+' [] e.data).map (fun cs => String.mk (stripChars cs))).map
                (parseExpressionGo fuel))
          else if funcCallShape e then e
          else if isNumberLit e then e
          else if !isValidPyExprModel e then
            if isIdentModel e then e else quoteString e
          else e

/-- Embeds `_parse_expression`. -/
def parseExpression (e : String) : String :=
  parseExpressionGo (e.data.length + 1) e

/-- Embeds `_infer_param_aggregate`: the "their sum" family of phrases
resolves to the sum of the enclosing parameter list. -/
def inferParamAggregate (value : String) (params : Option (List String)) : Option String :=
  match params with
  | none => none
  | some ps =>
    if ps.isEmpty then none
    else
      let cleaned := ps.filter (fun p => p ≠ "self" && p ≠ "cls")
      if cleaned.isEmpty then none
      else
        let normalized := lcStr (stripWS value)
        if normalized = "" then none
        else
          let lw := strWords normalized
          let gate :=
            (match lw with
             | a :: b :: _ =>
               (["their", "the"].contains a && ["sum", "total"].contains b)
               || (match lw with
                   | x :: y :: z :: _ =>
                     (x = "sum" && y = "of" && (z = "them" || z = "their"))
                     || (x = "total" && y = "of" && z = "them")
                   | _ => false)
             | _ => false)
          if gate then
            match cleaned with
            | [p] => some p
            | [p, q] => some (p ++ " + " ++ q)
            | l => some (joinStr " + " l)
          else none

/-- Embeds `_parse_value` (fuelled like `parseExpressionGo`). -/
def parseValueGo (fuel : Nat) (value : String) (currentParams : Option (List String)) : String :=
  let v := stripWS value
  let lower := lcStr v
  if lower = "true" then "True"
  else if lower = "false" then "False"
  else if lower = "none" || lower = "null" then "None"
  else if isNumberLit v then v
  else if (strStartsWithChar v '"' && strEndsWithChar v '"')
      || (strStartsWithChar v '\x27' && strEndsWithChar v '\x27') then v
  else
    match inferParamAggregate v currentParams with
    | some r => r
    | none =>
      let parsed := parseExpressionGo fuel v
      if parsed = v && !isValidPyExprModel parsed then quoteString parsed else parsed

/-- Embeds `_parse_value`. -/
def parseValue (value : String) (currentParams : Option (List String)) : String :=
  parseValueGo (value.data.length + 1) value currentParams

/-! ## Condition parsing (`_parse_condition`) -/

/-- Parenthesise each part and join (the or-join and and-join of
`_parse_condition`). -/
def joinParen (sep : String) : List String → String
  | [] => ""
  | [p] => "(" ++ p ++ ")"
  | p :: ps => "(" ++ p ++ ")" ++ sep ++ joinParen sep ps

/-- The condition patterns checked before the "or" split (source lines
2140 to 2176): emptiness tests, containment, membership, possession. -/
def condPatternsPre (ws : List String) : Option String :=
  match endsWithSeqCI ["is", "not", "empty"] ws with
  | some pre => some ("len(" ++ parseExpression (unwords pre) ++ ") != 0")
  | none =>
  match endsWithSeqCI ["is", "empty"] ws with
  | some pre => some ("len(" ++ parseExpression (unwords pre) ++ ") == 0")
  | none =>
  match splitCondSeq ["does", "not", "contain"] ws with
  | some (l, r) => some (parseExpression (unwords r) ++ " not in " ++ parseExpression (unwords l))
  | none =>
  match splitCondSeq ["doesn\x27t", "contain"] ws with
  | some (l, r) => some (parseExpression (unwords r) ++ " not in " ++ parseExpression (unwords l))
  | none =>
  match splitCondSeq ["contains"] ws with
  | some (l, r) => some (parseExpression (unwords r) ++ " in " ++ parseExpression (unwords l))
  | none =>
  match splitCondSeq ["is", "not", "in"] ws with
  | some (l, r) => some (parseExpression (unwords l) ++ " not in " ++ parseExpression (unwords r))
  | none =>
  match splitCondSeq ["is", "in"] ws with
  | some (l, r) => some (parseExpression (unwords l) ++ " in " ++ parseExpression (unwords r))
  | none =>
  match splitCondSeq ["has"] ws with
  | some (l, r) => some (parseExpression (unwords r) ++ " in " ++ parseExpression (unwords l))
  | none => none

/-- A two-sided comparison pattern: try each separator variant in order
and render with the given operator. -/
def condCompare (seps : List (List String)) (op : String) (ws : List String) : Option String :=
  match seps with
  | [] => none
  | sep :: more =>
    match splitCondSeq sep ws with
    | some (l, r) =>
      some (parseExpression (unwords l) ++ " " ++ op ++ " " ++ parseExpression (unwords r))
    | none => condCompare more op ws

/-- The condition patterns checked after the "and" split (source lines
2196 to 2297): the between-range test, the ordered comparison chain, the
string tests, and the final "is" equality with its boolean/none/empty
special cases. -/
def condPatternsPost (ws : List String) : Option String :=
  match matchBetweenSplit ws with
  | some (v, lo, hi) =>
    some (parseExpression (unwords lo) ++ " <= " ++ parseExpression (unwords v)
      ++ " <= " ++ parseExpression (unwords hi))
  | none =>
  match condCompare [["is", "greater", "than", "or", "equal", "to"],
      ["is", "bigger", "than", "or", "equal", "to"],
      ["is", "larger", "than", "or", "equal", "to"]] ">=" ws with
  | some r => some r
  | none =>
  match condCompare [["is", "at", "least"]] ">=" ws with
  | some r => some r
  | none =>
  match condCompare [["is", "no", "less", "than"]] ">=" ws with
  | some r => some r
  | none =>
  match condCompare [["is", "less", "than", "or", "equal", "to"],
      ["is", "smaller", "than", "or", "equal", "to"]] "<=" ws with
  | some r => some r
  | none =>
  match condCompare [["is", "at", "most"]] "<=" ws with
  | some r => some r
  | none =>
  match condCompare [["is", "no", "more", "than"]] "<=" ws with
  | some r => some r
  | none =>
  match condCompare [["is", "not", "equal", "to"]] "!=" ws with
  | some r => some r
  | none =>
  match condCompare [["does", "not", "equal"]] "!=" ws with
  | some r => some r
  | none =>
  match condCompare [["is", "equal", "to"]] "==" ws with
  | some r => some r
  | none =>
  match condCompare [["equals"]] "==" ws with
  | some r => some r
  | none =>
  match condCompare [["is", "the", "same", "as"]] "==" ws with
  | some r => some r
  | none =>
  match splitCondSeq ["ends", "with"] ws with
  | some (l, r) =>
    some (parseExpression (unwords l) ++ ".endswith(" ++ parseValue (unwords r) none ++ ")")
  | none =>
  match splitCondSeq ["starts", "with"] ws with
  | some (l, r) =>
    some (parseExpression (unwords l) ++ ".startswith(" ++ parseValue (unwords r) none ++ ")")
  | none =>
  match condCompare [["is", "greater", "than"], ["is", "bigger", "than"],
      ["is", "larger", "than"]] ">" ws with
  | some r => some r
  | none =>
  match condCompare [["is", "less", "than"], ["is", "smaller", "than"]] "<" ws with
  | some r => some r
  | none =>
  match condCompare [["is", "not"]] "!=" ws with
  | some r => some r
  | none =>
  match splitCondSeq ["is"] ws with
  | some (lws, rws) =>
    let l := parseExpression (unwords lws)
    let r := parseExpression (unwords rws)
    if ["true", "false", "none", "null"].contains (lcStr r) then
      some (l ++ " == " ++ parseExpression r)
    else if lcStr r = "empty" then some ("len(" ++ l ++ ") == 0")
    else some (l ++ " == " ++ r)
  | none => none

/-- Embeds `_parse_condition`: the leading "not", the pre-split pattern
group, the "or" split (lowest precedence), the "and" split with the
between-protection substitution, and the post-split pattern group ending
in the bare passthrough.  Recursion (on "not" remainders and on split
parts) is fuelled; fuel equal to the condition length plus one suffices
for the evaluated inputs. -/
def parseConditionGo : Nat → String → String
  | 0, c => c
  | fuel + 1, c0 =>
    let c := stripWS c0
    if c = "" then c
    else if strStartsWith (lcStr c) "not " then
      "not (" ++ parseConditionGo fuel (dropChars 4 c) ++ ")"
    else
      let ws := strWords c
      match condPatternsPre ws with
      | some r => r
      | none =>
        let orParts := splitSepWord "or" ws
        if 1 < orParts.length then
          joinParen " or " (orParts.map (fun p => parseConditionGo fuel (unwords p)))
        else
          let hasAnd := 1 < (splitSepWord "and" ws).length
          let protParts := splitSepWord "and" (protectBetweenWords ws)
          if hasAnd && 1 < protParts.length then
            joinParen " and "
              (protParts.map (fun p => parseConditionGo fuel (unwords (restoreBetween p))))
          else
            match condPatternsPost ws with
            | some r => r
            | none => c

/-- Embeds `_parse_condition`. -/
def parseCondition (c : String) : String :=
  parseConditionGo (c.data.length + 1) c

/-! ## Line dispatch (`_transpile_line`) -/

/-- Strip one trailing comma from a word, reporting whether one was
there. -/
def stripTrailingComma (w : String) : String × Bool :=
  match w.data.reverse with
  | ',' :: rest => (String.mk rest.reverse, true)
  | _ => (w, false)

/-- Comparison words of the `string_length_comparison` pattern. -/
def slcOps : List String :=
  ["bigger", "greater", "longer", "smaller", "less", "shorter", "equal", "same"]

/-- Embeds the `op_map` of the string-length-comparison handler
(`op_map.get(op_word.lower(), '>')`). -/
def opMap (w : String) : String :=
  if ["bigger", "greater", "longer"].contains w then ">"
  else if ["smaller", "less", "shorter"].contains w then "<"
  else if ["equal", "same"].contains w then "=="
  else ">"

/-- Tail of the `string_length_comparison` pattern after the second
operand: optional comma and "then", then "return" and a nonempty value.
`requireThen` is set when the comma was attached to the operand word (the
comma is only legal inside the optional then-group). -/
def slcRetTail (requireThen : Bool) : List String → Option (List String)
  | [] => none
  | w :: rest =>
    if w = "," then slcRetTail true rest
    else if lcStr w = "then" then
      match rest with
      | w2 :: v => if lcStr w2 = "return" && !v.isEmpty then some v else none
      | [] => none
    else if lcStr w = "return" && !requireThen then
      if rest.isEmpty then none else some rest
    else none

/-- Word-level match of the `string_length_comparison` regex
`^if\s+the\s+length\s+of\s+string\s+(\w+)\s+is\s+(bigger|...)\s+than\s+string\s+(\w+)(?:\s*,?\s*then\s*)?\s*return\s+(.+)$`,
returning the two operand names, the comparison word, and the return
value text. -/
def slcMatch (text : String) : Option (String × String × String × String) :=
  match strWords text with
  | w0 :: w1 :: w2 :: w3 :: w4 :: wL :: w6 :: wOp :: w7 :: w8 :: wR :: rest =>
    let (wRc, hadComma) := stripTrailingComma wR
    if lcStr w0 = "if" && lcStr w1 = "the" && lcStr w2 = "length" && lcStr w3 = "of"
        && lcStr w4 = "string" && isWordChars wL && lcStr w6 = "is"
        && slcOps.contains (lcStr wOp) && lcStr w7 = "than" && lcStr w8 = "string"
        && isWordChars wRc then
      match slcRetTail hadComma rest with
      | some v => some (wL, wOp, wRc, unwords v)
      | none => none
    else none
  | _ => none

/-- Word-level match of the `else_inline` pattern
`^(?:else|otherwise)\s*,?\s+(.+)$`. -/
def elseInlineMatch (text : String) : Option String :=
  match strWords text with
  | [] => none
  | w0 :: rest =>
    let (w0c, hadComma) := stripTrailingComma w0
    if lcStr w0c = "else" || lcStr w0c = "otherwise" then
      let rest2 :=
        match rest with
        | w :: more => if w = "," && !hadComma then more else rest
        | [] => rest
      if rest2.isEmpty then none else some (unwords rest2)
    else none

/-- First words that gate the pattern branches of `_transpile_line`
between its string-length-comparison idiom and its assignment check
(every dictionary pattern matched there is anchored on one of these
keywords, or has the `call_with` shape handled separately). -/
def transpileKeywords : List String :=
  ["create", "make", "build", "define", "let", "set", "assign",
    "increase", "increment", "decrease", "decrement", "reduce",
    "if", "elif", "else", "otherwise", "for", "while", "repeat",
    "wait", "sleep", "delay", "with", "try", "catch", "finally",
    "print", "show", "display", "echo", "log", "logging", "logger",
    "say", "tell", "announce", "return", "give", "send",
    "call", "run", "execute", "raise", "throw", "exit", "quit", "stop",
    "await", "yield", "add", "append", "push", "prepend", "remove",
    "delete", "pop", "clear", "empty", "sort", "order", "reverse",
    "connect", "query", "insert", "decorate", "async"]

/-- Gate for the abstracted idiom branches of `_transpile_line` (api
endpoints, conditionals, loops, functions, classes, collection verbs,
calls, ...; source lines 427 to 1029).  None of the documents the
theorems evaluate contains a line satisfying it. -/
def otherIdiomGate (text : String) : Bool :=
  match strWords text with
  | [] => false
  | w :: rest =>
    transpileKeywords.contains (lcStr w)
    || (match rest with
        | r0 :: _ =>
          (isIdentModel w || isDottedIdent w) && ["with", "using"].contains (lcStr r0)
        | [] => false)

/-- Result of the abstracted idiom branches.  In the source every one of
those branches constructs its `TranspileResult` without passing
`consumed`, so the dataclass default 1 applies (the only assignments to
`consumed` in the whole module are in the string-length-comparison
handler); the emitted lines and block data of these branches are
abstracted, which no theorem below depends on. -/
def otherIdiomStub (text : String) : TranspileResult :=
  { lines := [OutputLine.mk 0 text] }

/-- Split a char list at the first occurrence of a character (model of
Python `str.partition` / `str.split(c, 1)`). -/
def splitFirstChar (c : Char) : List Char → Option (List Char × List Char)
  | [] => none
  | d :: ds =>
    if d = c then some ([], ds)
    else (splitFirstChar c ds).map (fun p => (d :: p.fst, p.snd))

/-- Modelled from the spec: `_is_assignable_expr` (an `ast.parse` in eval
mode whose body must be a Name, Attribute or Subscript), restricted to
identifier and dotted-identifier shapes. -/
def isAssignableModel (s : String) : Bool :=
  isIdentModel s || isDottedIdent s

/-- Embeds `_looks_like_assignment`: a single `=` that is not part of a
comparison or walrus, with nonempty sides, the left side of assignable
shape. -/
def looksLikeAssignment (text : String) : Bool :=
  strContainsChar text '=' &&
  !strContainsSub text "==" && !strContainsSub text "!=" &&
  !strContainsSub text ">=" && !strContainsSub text "<=" &&
  !strContainsSub text ":=" &&
  (match splitFirstChar '=' text.data with
   | none => false
   | some (l, r) =>
     let ls := stripChars l
     let rs := stripChars r
     !ls.isEmpty && !rs.isEmpty && isAssignableModel (String.mk ls))

/-- Embeds `_should_autopass`: a block header whose next line is not more
indented (or which ends the document) gets a synthesized `pass` body. -/
def shouldAutopass (allLines : List SourceLine) (index : Nat) (currentIndent : Nat) : Bool :=
  match allLines.get? (index + 1) with
  | none => true
  | some nl => nl.indent ≤ currentIndent

/-- Embeds `_render_block_header`. -/
def renderBlockHeader (header : String) (allLines : List SourceLine) (index : Nat)
    (currentIndent : Nat) (blockType : Option String) (blockName : Option String)
    (blockParams : Option (List String)) : TranspileResult :=
  if shouldAutopass allLines index currentIndent then
    { lines := [OutputLine.mk 0 header, OutputLine.mk 1 "pass"], block_params := blockParams }
  else
    { lines := [OutputLine.mk 0 header], opens_block := true, block_type := blockType,
      block_name := blockName, block_params := blockParams }

/-- Embeds `_transpile_line`.  The string-length-comparison idiom (the
only branch that sets `consumed`, reporting 2 when it absorbs a following
`else_inline` line), the assignment branch, the trial-parse passthrough
(with its block-header variant), and the final quoting fallback are
embedded faithfully; the remaining idiom branches sit behind
`otherIdiomGate` (see `otherIdiomStub`). -/
def transpileLine (line : SourceLine) (allLines : List SourceLine) (index : Nat)
    (indentUnit : Nat) (stack : List Block) : TranspileResult :=
  let text := stripWS line.content
  match slcMatch text with
  | some (left, opw, right, retv) =>
    let op := opMap (lcStr opw)
    let otherwiseVal : Option String :=
      match allLines.get? (index + 1) with
      | some nl =>
        match elseInlineMatch (stripWS nl.content) with
        | some v => some (stripWS v)
        | none => none
      | none => none
    let baseLines :=
      [OutputLine.mk 0 ("def program(" ++ left ++ ", " ++ right ++ "):"),
        OutputLine.mk 1 ("if len(" ++ left ++ ") " ++ op ++ " len(" ++ right ++ "):"),
        OutputLine.mk 2 ("return " ++ parseValue retv none)]
    match otherwiseVal with
    | some ov =>
      { lines := baseLines ++
          [OutputLine.mk 1 "else:", OutputLine.mk 2 ("return " ++ parseValue ov none)],
        consumed := 2 }
    | none => { lines := baseLines, consumed := 1 }
  | none =>
    if otherIdiomGate text then otherIdiomStub text
    else if looksLikeAssignment text then
      match splitFirstChar '=' text.data with
      | some (l, r) =>
        { lines := [OutputLine.mk 0 (String.mk (stripChars l) ++ " = "
            ++ parseExpression (String.mk (stripChars r)))] }
      | none => { lines := [OutputLine.mk 0 (parseExpression text)] }
    else if pyParseLineModel text then
      if strEndsWithChar text ':' then
        renderBlockHeader text allLines index line.indent none none none
      else { lines := [OutputLine.mk 0 text] }
    else { lines := [OutputLine.mk 0 (parseExpression text)] }

/-! ## The per-line loop of `transpile` -/

/-- Type of the dispatch function `_transpile_line(line, lines, i,
indent_unit, stack)` (the mutable `endpoint_names` accumulator, used only
by the abstracted api-endpoint branches, is omitted). -/
abbrev Dispatch :=
  SourceLine → List SourceLine → Nat → Nat → List Block → TranspileResult

/-- Embeds the dedent loop
`while stack and line.indent <= stack[-1].indent: stack.pop()` (the head
of the Lean list is the top of the Python stack). -/
def popWhile (ind : Nat) : List Block → List Block
  | [] => []
  | b :: rest => if ind ≤ b.indent then popWhile ind rest else b :: rest

/-- One generated line paired with the SourceLine that produced it: the
`python_lines.append(...)` and `mapping.append(line)` of the loop body,
which always happen together. -/
def renderOut (line : SourceLine) (indentUnit : Nat) (o : OutputLine) :
    String × Option SourceLine :=
  (spaces (line.indent + o.indent_offset * indentUnit) ++ o.text, some line)

/-- Embeds the push transition: on `opens_block`, a Block at the current
line's indent (with `block_type or "block"`) is pushed. -/
def pushIfOpens (line : SourceLine) (r : TranspileResult) (stack1 : List Block) : List Block :=
  if r.opens_block then
    { indent := line.indent, block_type := r.block_type.getD "block",
      name := r.block_name, params := r.block_params } :: stack1
  else stack1

/-- Embeds the per-line `while i < len(lines)` loop of `transpile`,
fuelled: each iteration pops dedented blocks, dispatches, renders the
emitted lines against the current line's indent, pushes an opened block,
and advances `i` by the consumed count.  `none` is returned only on fuel
exhaustion, which (by the theorem for C10) cannot happen with fuel equal
to the number of lines. -/
def transpileGo (dispatch : Dispatch) (lines : List SourceLine) (indentUnit : Nat) :
    Nat → Nat → List Block → Option (List (String × Option SourceLine))
  | 0, i, _ => if (lines.get? i).isSome then none else some []
  | fuel + 1, i, stack =>
    match lines.get? i with
    | none => some []
    | some line =>
      let stack1 := popWhile line.indent stack
      let r := dispatch line lines i indentUnit stack1
      let outs := r.lines.map (renderOut line indentUnit)
      let stack2 := pushIfOpens line r stack1
      (transpileGo dispatch lines indentUnit fuel (i + r.consumed) stack2).map
        (fun more => outs ++ more)

/-- The synthetic preamble of `transpile`: the import block (followed by
one blank line) when imports exist, and the Flask bootstrap pair when the
request-routing feature was detected — all mapped to no SourceLine. -/
def preludePairs (imports : List String) (flaskApp : Bool) :
    List (String × Option SourceLine) :=
  (if imports.isEmpty then [] else imports.map (fun s => (s, none)) ++ [("", none)])
    ++ (if flaskApp then
          [("app = Flask(__name__, root_path=os.getcwd())", none), ("", none)]
        else [])

/-- The synthetic trailer of `transpile`: the Flask entrypoint block,
emitted when the routing feature is present and no explicit run line was
seen — all mapped to no SourceLine. -/
def trailerPairs (flaskApp flaskRun : Bool) (indentUnit : Nat) :
    List (String × Option SourceLine) :=
  if flaskApp && flaskRun then
    [("", none), ("if __name__ == \"__main__\":", none),
      (spaces indentUnit ++ "app.run(debug=True, port=5000)", none)]
  else []

/-- Embeds the assembly of `transpile`: preamble, per-line loop output,
trailer, with each generated line paired with its originating SourceLine
(`none` for synthetic lines).  The source keeps the two parallel lists
`python_lines` and `mapping`, appending to both in lockstep; the pairing
is that lockstep. -/
def transpileCore (imports : List String) (flaskApp flaskRun : Bool) (dispatch : Dispatch)
    (lines : List SourceLine) (indentUnit : Nat) :
    Option (List (String × Option SourceLine)) :=
  (transpileGo dispatch lines indentUnit lines.length 0 []).map
    (fun body =>
      preludePairs imports flaskApp ++ body ++ trailerPairs flaskApp flaskRun indentUnit)

/-- Embeds the `mapping_dict` comprehension
`{idx + 1: src for idx, src in enumerate(mapping) if src is not None}`:
lookup of the 1-based generated line number. -/
def lineMapLookup (out : List (String × Option SourceLine)) (k : Nat) :
    Option SourceLine :=
  if 1 ≤ k then
    match out.get? (k - 1) with
    | some (_, s) => s
    | none => none
  else none

/-- Embeds `_detect_features`' flask_app flag: some line matches one of
the four api-endpoint patterns (all of which start with the word "create"
and contain the words "api" and "endpoint"; word-level approximation of
the four anchored regexes). -/
def detectFlaskApp (lines : List SourceLine) : Bool :=
  lines.any (fun l =>
    match strWords l.content with
    | w :: rest =>
      lcStr w = "create" && (rest.map lcStr).contains "api"
        && (rest.map lcStr).contains "endpoint"
    | [] => false)

/-- Embeds `_detect_features`' flask_run flag: cleared when a line
mentions `app.run` or `__name__`. -/
def detectFlaskRun (lines : List SourceLine) : Bool :=
  !(lines.any (fun l =>
    strContainsSub l.content "app.run" || strContainsSub l.content "__name__"))

/-- ASCII-letter presence: every trigger regex of the source's
`_library_patterns` table requires at least one ASCII letter, so a
document without any triggers no library import. -/
def hasAsciiLetter (s : String) : Bool := s.data.any isLetterChar

/-- Embeds `transpile` for a document, with the library-import scan
specialised to its result for the documents considered (the empty import
list: see `hasAsciiLetter`), and the feature flags computed as in
`_detect_features`.  Returns the newline-joined generated text. -/
def transpileDocument (imports : List String) (text : String) : Option String :=
  let lines := tokenizeLines text
  let unit := inferIndentUnit lines
  let fa := detectFlaskApp lines
  let fr := detectFlaskRun lines
  (transpileCore imports fa fr transpileLine lines unit).map
    (fun out => joinStr "\n" (out.map Prod.fst))

/-- Boolean form of the stack invariant: indents strictly decrease from
the top (head) of the stack, i.e. strictly increase from bottom to top. -/
def stackInvB : List Block → Bool
  | [] => true
  | [_] => true
  | a :: b :: rest => decide (b.indent < a.indent) && stackInvB (b :: rest)

/-- The block stacks encountered by the per-line loop: for each
iteration, the stack after the dedent pop (the one dispatch sees) and the
stack after the optional push (the one carried to the next iteration).
Instrumentation of `transpileGo` for stating the C4 invariant. -/
def goStacks (dispatch : Dispatch) (lines : List SourceLine) (indentUnit : Nat) :
    Nat → Nat → List Block → List (List Block)
  | 0, _, _ => []
  | fuel + 1, i, stack =>
    match lines.get? i with
    | none => []
    | some line =>
      let stack1 := popWhile line.indent stack
      let r := dispatch line lines i indentUnit stack1
      let stack2 := pushIfOpens line r stack1
      stack1 :: stack2 :: goStacks dispatch lines indentUnit fuel (i + r.consumed) stack2

/-! ## Sandbox runtime (`runtime.py`)

The `Runtime` class executes compiled code with `exec` against a globals
dict.  The dict is modelled as an association list of Python values; the
effect of the executed code on its globals (and its captured streams and
raised exception, if any) is a parameter `prog`, since the code itself is
arbitrary; the worker thread used for timeouts is modelled by the
recorded outcome of `thread.join(timeout)` (`finishedInTime`), real time
being outside the embedding. -/

/-- Python values stored in the namespace (only the shapes the theorems
need). -/
inductive PyVal where
  | pyStr (s : String)
  | pyInt (n : Int)
  | pyNone
deriving Repr, DecidableEq

/-- The globals dict. -/
abbrev Globals := List (String × PyVal)

/-- Dict lookup. -/
def lookupG (k : String) : Globals → Option PyVal
  | [] => none
  | (k2, v) :: rest => if k2 = k then some v else lookupG k rest

/-- Dict update or insert. -/
def setG (k : String) (v : PyVal) : Globals → Globals
  | [] => [(k, v)]
  | (k2, w) :: rest => if k2 = k then (k2, v) :: rest else (k2, w) :: setG k v rest

/-- Embeds `_reset_namespace`: `self.globals = {"__name__": "__main__"}`. -/
def initNamespace : Globals := [("__name__", PyVal.pyStr "__main__")]

/-- The runtime state between `execute` calls. -/
structure RTState where
  globals : Globals
  lastError : Option String := none
deriving Repr, DecidableEq

/-- A fresh `Runtime()` (its constructor calls `_reset_namespace`). -/
def initRTState : RTState := { globals := initNamespace }

/-- Embeds the allow-list of `_build_safe_builtins`. -/
def safeBuiltinNames : List String :=
  ["abs", "all", "any", "bool", "dict", "enumerate", "float", "int", "len",
    "list", "max", "min", "print", "range", "round", "str", "sum", "zip",
    "sorted", "set", "tuple", "Exception", "__build_class__"]

/-- The builtins visible to executed code: the host's full builtins (when
the globals dict carries no `__builtins__` key, `exec` injects them), or
the restricted allow-list dict installed by safe mode. -/
inductive BuiltinsEnv where
  | full
  | restricted (allowed : List String)
deriving Repr, DecidableEq

/-- Embeds `_blocked_import`: the error type and message raised when the
safe-mode builtins' `__import__` is called. -/
def blockedImportError : String × String :=
  ("ImportError", "Imports are disabled in safe mode")

/-- Outcome of a dynamic import attempt under a builtins environment:
allowed under the full builtins, the `_blocked_import` error under the
safe-mode allow-list. -/
def dynImportOutcome : BuiltinsEnv → Option (String × String)
  | BuiltinsEnv.full => none
  | BuiltinsEnv.restricted _ => some blockedImportError

/-- Embeds `_get_exec_globals` together with `exec`'s builtins rule: in
safe mode the executed code sees a copy of the namespace with the
restricted builtins installed; otherwise it sees the namespace object
itself with the host's full builtins. -/
def getExecGlobalsEnv (rt : RTState) (safeMode : Bool) : Globals × BuiltinsEnv :=
  if safeMode then (rt.globals, BuiltinsEnv.restricted safeBuiltinNames)
  else (rt.globals, BuiltinsEnv.full)

/-- The default of the `safe_mode` keyword parameter of
`Runtime.execute`. -/
def executeSafeModeDefault : Bool := false

/-- An exception raised by executed code: its type name, message, and the
traceback frames (filename and line number, outermost first, as
`traceback.extract_tb` lists them). -/
structure PyExc where
  excType : String
  msg : String
  frames : List (String × Nat) := []
deriving Repr, DecidableEq

/-- Effect of one executed program on its globals dict, together with the
text it wrote to the captured stdout/stderr and the exception it raised,
if any. -/
structure ProgResult where
  globals : Globals
  stdout : String := ""
  stderr : String := ""
  exc : Option PyExc := none

/-- Timeout configuration of one `execute` call: the rendered seconds
value (used verbatim in the TimeoutError message) and the observed
outcome of `thread.join(timeout)` — `false` when the worker was still
alive at expiry. -/
structure TimeoutCfg where
  secondsRepr : String
  finishedInTime : Bool
deriving Repr, DecidableEq

/-- Embeds the timeout failure
`TimeoutError(f"Execution exceeded timeout of {timeout} seconds")`. -/
def timeoutExc (cfg : TimeoutCfg) : PyExc :=
  { excType := "TimeoutError",
    msg := "Execution exceeded timeout of " ++ cfg.secondsRepr ++ " seconds" }

/-! ## Failure diagnostics (`_format_exception`) -/

/-- Embeds the frame search of `_format_exception`: the innermost frame
whose filename matches the generated unit (`reversed(frames)` scans from
innermost), falling back to the innermost frame overall. -/
def findFrame (filename : String) (frames : List (String × Nat)) : Option (String × Nat) :=
  match frames.reverse.find? (fun f => f.fst = filename) with
  | some f => some f
  | none => frames.getLast?

/-- Lookup in the line map (`line_mapping.get(py_line)`). -/
def lookupMapping (k : Nat) : List (Nat × SourceLine) → Option SourceLine
  | [] => none
  | (k2, s) :: rest => if k2 = k then some s else lookupMapping k rest

/-- Truthiness of the optional line-mapping dict (`if line_mapping and
...`): absent or empty is falsy. -/
def mappingFalsy : Option (List (Nat × SourceLine)) → Bool
  | none => true
  | some m => m.isEmpty

/-- The `py_line` local of `_format_exception`: the line number of the
selected frame. -/
def fmtPyLine (filename : String) (frames : List (String × Nat)) : Option Nat :=
  (findFrame filename frames).map Prod.snd

/-- The `source_line` local of `_format_exception`
(`if line_mapping and py_line in line_mapping`). -/
def fmtSourceLine (mapping : Option (List (Nat × SourceLine))) (pyLine : Option Nat) :
    Option SourceLine :=
  match mapping, pyLine with
  | some m, some n => if m.isEmpty then none else lookupMapping n m
  | _, _ => none

/-- The `original_line_no` and `original_text` locals of
`_format_exception`: taken from the mapped SourceLine (re-indented), or
from `source_lines` when the mapping is falsy and the line number is in
range. -/
def fmtOriginalPair (mapping : Option (List (Nat × SourceLine)))
    (sourceLines : Option (List String)) (pyLine : Option Nat) : Option (Nat × String) :=
  match fmtSourceLine mapping pyLine with
  | some s => some (s.line_no, spaces s.indent ++ s.content)
  | none =>
    match sourceLines, pyLine with
    | some srcs, some n =>
      if mappingFalsy mapping && n ≠ 0 && 1 ≤ n && n ≤ srcs.length then
        match srcs.get? (n - 1) with
        | some t => some (n, t)
        | none => none
      else none
    | _, _ => none

/-- The `location` local of `_format_exception`
(`filename or "<string>"`). -/
def fmtLocation (filename : String) : String :=
  if filename = "" then "<string>" else filename

/-- The first diagnostic line: `"<unit>:<original_line_no>"` for a mapped
line, `"<unit> (python line <n>)"` for an unmapped one. -/
def fmtFirstPart (location : String) (op : Option (Nat × String)) (pyLine : Option Nat) :
    String :=
  match op with
  | some (n, _) => location ++ ":" ++ toString n
  | none =>
    match pyLine with
    | some n => location ++ " (python line " ++ toString n ++ ")"
    | none => location

/-- The optional `Plain:`-tagged middle line with the original pseudocode
text. -/
def fmtMiddleParts (op : Option (Nat × String)) : List String :=
  match op with
  | some (_, t) => if t = "" then [] else ["Plain: " ++ t]
  | none => []

/-- Embeds `_format_exception`.  The frames of the exception determine
the failing generated line; a mapped line is reported as
`"<unit>:<original_line_no>"` with the re-indented original pseudocode
text on a `Plain:` line; an unmapped line falls back to
`"<unit> (python line <n>)"`; the final line is always
`"<ExcType>: <message>"`. -/
def formatException (excType excMsg : String) (filename : String)
    (mapping : Option (List (Nat × SourceLine))) (sourceLines : Option (List String))
    (frames : List (String × Nat)) : String :=
  joinStr "\n"
    ([fmtFirstPart (fmtLocation filename)
        (fmtOriginalPair mapping sourceLines (fmtPyLine filename frames))
        (fmtPyLine filename frames)]
      ++ fmtMiddleParts (fmtOriginalPair mapping sourceLines (fmtPyLine filename frames))
      ++ [excType ++ ": " ++ excMsg])

/-- Embeds the stderr append of `execute`'s failure path: a newline is
inserted when the captured stderr does not already end with one, then the
diagnostic, then a trailing newline when the diagnostic lacks one. -/
def appendDiag (stderr formatted : String) : String :=
  if formatted = "" then stderr
  else
    (if stderr ≠ "" && !strEndsWithChar stderr '\n' then stderr ++ "\n" else stderr)
      ++ formatted ++ (if !strEndsWithChar formatted '\n' then "\n" else "")

/-- Observable result of one `execute` call with output capture. -/
structure ExecResult where
  stdout : String
  stderr : String
  failure : Option PyExc
deriving Repr, DecidableEq

/-- Embeds `Runtime.execute` (capture enabled).  The program's effect is
the parameter `prog` applied to the globals the call hands to `exec`
(`_get_exec_globals`).  With a timeout whose worker missed the deadline,
the failure is the TimeoutError and the namespace is unconditionally
reset (`self.reset()` rebinds `self.globals`, so the abandoned worker's
dict is discarded — no cancellation is delivered to it).  Otherwise the
namespace retains the program's writes exactly when safe mode is off
(safe mode executed against a copy, which is dropped).  On failure the
diagnostic is formatted, stored in `last_error`, and appended to the
captured stderr. -/
def executeModel (rt : RTState) (prog : Globals → ProgResult) (safeMode : Bool)
    (timeout : Option TimeoutCfg) (filename : Option String)
    (mapping : Option (List (Nat × SourceLine))) (sourceLines : Option (List String)) :
    RTState × ExecResult :=
  let execFilename := match filename with
    | some f => if f = "" then "<string>" else f
    | none => "<string>"
  let pr := prog (getExecGlobalsEnv rt safeMode).fst
  let timedOut := match timeout with
    | some cfg => !cfg.finishedInTime
    | none => false
  let exception : Option PyExc :=
    match timeout with
    | some cfg => if cfg.finishedInTime then pr.exc else some (timeoutExc cfg)
    | none => pr.exc
  let globalsAfter :=
    if timedOut then initNamespace
    else if safeMode then rt.globals
    else pr.globals
  match exception with
  | some e =>
    let formatted := formatException e.excType e.msg execFilename mapping sourceLines e.frames
    ({ globals := globalsAfter, lastError := some formatted },
      { stdout := pr.stdout, stderr := appendDiag pr.stderr formatted, failure := some e })
  | none =>
    ({ globals := globalsAfter, lastError := none },
      { stdout := pr.stdout, stderr := pr.stderr, failure := none })

/-! ## Theorems -/

theorem mem_insertSortedDedup (n : Nat) (l : List Nat) (m : Nat) :
    m ∈ insertSortedDedup n l ↔ m = n ∨ m ∈ l := by
  induction l with
  | nil => simp [insertSortedDedup]
  | cons a as ih =>
    by_cases h1 : n < a
    · simp [insertSortedDedup, h1]
    · by_cases h2 : n = a
      · subst h2
        simp [insertSortedDedup, h1]
      · simp [insertSortedDedup, h1, h2, ih]
        tauto

theorem pairwise_insertSortedDedup (n : Nat) (l : List Nat)
    (hp : List.Pairwise (· < ·) l) :
    List.Pairwise (· < ·) (insertSortedDedup n l) := by
  induction l with
  | nil => simp [insertSortedDedup]
  | cons a as ih =>
    rcases List.pairwise_cons.1 hp with ⟨ha, has⟩
    by_cases h1 : n < a
    · simp only [insertSortedDedup, if_pos h1]
      refine List.pairwise_cons.2 ⟨?_, hp⟩
      intro b hb
      rcases List.mem_cons.1 hb with rfl | hb'
      · exact h1
      · exact lt_trans h1 (ha b hb')
    · by_cases h2 : n = a
      · simpa [insertSortedDedup, h1, h2] using hp
      · simp only [insertSortedDedup, if_neg h1, if_neg h2]
        refine List.pairwise_cons.2 ⟨?_, ih has⟩
        intro b hb
        rcases (mem_insertSortedDedup n as b).1 hb with rfl | hb'
        · omega
        · exact ha b hb'

theorem mem_foldr_ins (xs : List Nat) (m : Nat) :
    m ∈ xs.foldr insertSortedDedup [] ↔ m ∈ xs := by
  induction xs with
  | nil => simp
  | cons x xs ih => simp [mem_insertSortedDedup, ih]

theorem sortedIndents_sorted (lines : List SourceLine) :
    List.Pairwise (· < ·) (sortedIndents lines) := by
  unfold sortedIndents
  generalize (List.filter (fun n => decide (0 < n)) (List.map SourceLine.indent lines)) = xs
  induction xs with
  | nil => simp
  | cons x xs ih => exact pairwise_insertSortedDedup x _ ih

theorem mem_sortedIndents (lines : List SourceLine) (m : Nat) :
    m ∈ sortedIndents lines ↔ 0 < m ∧ ∃ s ∈ lines, s.indent = m := by
  unfold sortedIndents
  rw [mem_foldr_ins]
  simp [List.mem_filter, List.mem_map]
  tauto

theorem consecDiffs_pos (l : List Nat) : ∀ d ∈ consecDiffs l, 0 < d := by
  induction l with
  | nil => simp [consecDiffs]
  | cons a as ih =>
    cases as with
    | nil => simp [consecDiffs]
    | cons b rest =>
      intro d hd
      unfold consecDiffs at hd
      rcases List.mem_append.1 hd with h | h
      · by_cases hpos : 0 < b - a
        · simp [hpos] at h
          omega
        · simp [hpos] at h
      · exact ih d h

theorem consecDiffs_sorted_cons (a b : Nat) (rest : List Nat) (hab : a < b) :
    consecDiffs (a :: b :: rest) = (b - a) :: consecDiffs (b :: rest) := by
  conv_lhs => rw [consecDiffs]
  simp [Nat.sub_pos_of_lt hab]

theorem foldl_min_le_init (xs : List Nat) (a : Nat) : xs.foldl Nat.min a ≤ a := by
  induction xs generalizing a with
  | nil => simp
  | cons x xs ih =>
    simp only [List.foldl_cons]
    exact le_trans (ih (Nat.min a x)) (Nat.min_le_left a x)

theorem foldl_min_le_mem (xs : List Nat) (a : Nat) :
    ∀ x ∈ xs, xs.foldl Nat.min a ≤ x := by
  induction xs generalizing a with
  | nil => simp
  | cons y ys ih =>
    intro x hx
    rcases List.mem_cons.1 hx with rfl | hx'
    · exact le_trans (foldl_min_le_init ys (Nat.min a x)) (Nat.min_le_right a x)
    · exact ih (Nat.min a y) x hx'

theorem foldl_min_mem (xs : List Nat) (a : Nat) :
    xs.foldl Nat.min a = a ∨ xs.foldl Nat.min a ∈ xs := by
  induction xs generalizing a with
  | nil => simp
  | cons y ys ih =>
    simp only [List.foldl_cons]
    rcases ih (Nat.min a y) with h | h
    · rcases Nat.le_total a y with hay | hya
      · left
        rw [h]
        exact Nat.min_eq_left hay
      · right
        rw [h]
        simp [Nat.min_eq_right hya]
    · right
      exact List.mem_cons_of_mem y h

theorem minimumList_spec (l : List Nat) (m : Nat) (h : minimumList l = some m) :
    m ∈ l ∧ ∀ x ∈ l, m ≤ x := by
  cases l with
  | nil => simp [minimumList] at h
  | cons x xs =>
    simp only [minimumList, Option.some.injEq] at h
    subst h
    constructor
    · rcases foldl_min_mem xs x with h | h
      · rw [h]
        exact List.mem_cons_self x xs
      · exact List.mem_cons_of_mem x h
    · intro y hy
      rcases List.mem_cons.1 hy with rfl | hy'
      · exact foldl_min_le_init xs y
      · exact foldl_min_le_mem xs x y hy'

theorem minimumList_eq_of (l : List Nat) (m : Nat) (hmem : m ∈ l)
    (hle : ∀ x ∈ l, m ≤ x) : minimumList l = some m := by
  cases l with
  | nil => simp at hmem
  | cons x xs =>
    simp only [minimumList, Option.some.injEq]
    have hub : xs.foldl Nat.min x ≤ m := by
      rcases List.mem_cons.1 hmem with rfl | hmem'
      · exact foldl_min_le_init xs m
      · exact foldl_min_le_mem xs x m hmem'
    have hlb : m ≤ xs.foldl Nat.min x := by
      rcases foldl_min_mem xs x with h | h
      · rw [h]
        exact hle x (List.mem_cons_self x xs)
      · exact hle _ (List.mem_cons_of_mem x h)
    omega

theorem mem_pairDiffs (l : List Nat) (a b : Nat) (ha : a ∈ l) (hb : b ∈ l)
    (hab : a < b) : b - a ∈ pairDiffs l := by
  simp only [pairDiffs, List.mem_flatMap, List.mem_filterMap]
  exact ⟨a, ha, b, hb, by simp [hab]⟩

theorem pairDiffs_mem_inv (l : List Nat) (d : Nat) (h : d ∈ pairDiffs l) :
    ∃ a b, a ∈ l ∧ b ∈ l ∧ a < b ∧ d = b - a := by
  simp only [pairDiffs, List.mem_flatMap, List.mem_filterMap] at h
  rcases h with ⟨a, ha, b, hb, hd⟩
  by_cases hab : a < b
  · simp [hab] at hd
    exact ⟨a, b, ha, hb, hab, hd.symm⟩
  · simp [hab] at hd

theorem consecDiffs_subset_pairs (l : List Nat) (hp : List.Pairwise (· < ·) l) :
    ∀ d ∈ consecDiffs l, d ∈ pairDiffs l := by
  induction l with
  | nil => simp [consecDiffs]
  | cons x xs ih =>
    cases xs with
    | nil => simp [consecDiffs]
    | cons y ys =>
      intro d hd
      rcases List.pairwise_cons.1 hp with ⟨hx, hxs⟩
      have hxy : x < y := hx y (List.mem_cons_self y ys)
      rw [consecDiffs_sorted_cons x y ys hxy] at hd
      rcases List.mem_cons.1 hd with rfl | hd'
      · exact mem_pairDiffs _ x y (List.mem_cons_self x _)
          (List.mem_cons_of_mem x (List.mem_cons_self y ys)) hxy
      · rcases pairDiffs_mem_inv _ d (ih hxs d hd') with ⟨a, b, ha, hb, hab, rfl⟩
        exact mem_pairDiffs _ a b (List.mem_cons_of_mem x ha)
          (List.mem_cons_of_mem x hb) hab

theorem consecDiffs_le_pairs (l : List Nat) (hp : List.Pairwise (· < ·) l) :
    ∀ a b, a ∈ l → b ∈ l → a < b → ∃ d ∈ consecDiffs l, d ≤ b - a := by
  induction l with
  | nil => simp
  | cons x xs ih =>
    intro a b ha hb hab
    rcases List.pairwise_cons.1 hp with ⟨hx, hxs⟩
    cases xs with
    | nil =>
      rcases List.mem_singleton.1 (by simpa using ha) with rfl
      rcases List.mem_singleton.1 (by simpa using hb) with rfl
      omega
    | cons y ys =>
      have hxy : x < y := hx y (List.mem_cons_self y ys)
      rcases List.mem_cons.1 ha with rfl | ha'
      · have hb' : b ∈ y :: ys := by
          rcases List.mem_cons.1 hb with rfl | hb'
          · omega
          · exact hb'
        have hyb : y ≤ b := by
          rcases List.mem_cons.1 hb' with rfl | hb''
          · exact le_refl b
          · exact le_of_lt ((List.pairwise_cons.1 hxs).1 b hb'')
        refine ⟨y - a, ?_, ?_⟩
        · rw [consecDiffs_sorted_cons a y ys hxy]
          exact List.mem_cons_self _ _
        · omega
      · rcases List.mem_cons.1 hb with rfl | hb'
        · have : b < a := hx a ha'
          omega
        · rcases ih hxs a b ha' hb' hab with ⟨d, hd, hdle⟩
          refine ⟨d, ?_, hdle⟩
          rw [consecDiffs_sorted_cons x y ys hxy]
          exact List.mem_cons_of_mem _ hd

/-- C5: indentation-unit inference.  With no positive indentation the
unit defaults to 4; with a single distinct positive value it is that
value; with two or more distinct positive values it is the minimum
positive pairwise difference of the sorted distinct values (the code's
minimum consecutive difference is proved equal to the claim's minimum
over all pairs); the unit is always at least 1; a 0/3 document infers 3
and a 0/2/4/8 document infers 2. -/
theorem indent_unit_inference (lines : List SourceLine) :
    ((∀ s ∈ lines, s.indent = 0) → inferIndentUnit lines = 4) ∧
    (∀ a, sortedIndents lines = [a] → inferIndentUnit lines = a) ∧
    (2 ≤ (sortedIndents lines).length →
      minimumList (pairDiffs (sortedIndents lines)) = some (inferIndentUnit lines)) ∧
    1 ≤ inferIndentUnit lines ∧
    inferIndentUnit [⟨"a", 0, 1⟩, ⟨"b", 3, 2⟩] = 3 ∧
    inferIndentUnit [⟨"a", 0, 1⟩, ⟨"b", 2, 2⟩, ⟨"c", 4, 3⟩, ⟨"d", 8, 4⟩] = 2 := by
  have hpos : ∀ m ∈ sortedIndents lines, 0 < m := fun m hm =>
    ((mem_sortedIndents lines m).1 hm).1
  have hsorted := sortedIndents_sorted lines
  refine ⟨?_, ?_, ?_, ?_, by decide, by decide⟩
  · intro h0
    have hnil : sortedIndents lines = [] := by
      rw [List.eq_nil_iff_forall_not_mem]
      intro m hm
      rcases (mem_sortedIndents lines m).1 hm with ⟨hm0, s, hs, hsm⟩
      have := h0 s hs
      omega
    simp [inferIndentUnit, hnil]
  · intro a ha
    simp [inferIndentUnit, ha]
  · intro hlen
    rcases hSI : sortedIndents lines with _ | ⟨a, _ | ⟨b, rest⟩⟩
    · rw [hSI] at hlen
      simp at hlen
    · rw [hSI] at hlen
      simp at hlen
    · rw [hSI] at hsorted hpos
      have hab : a < b := (List.pairwise_cons.1 hsorted).1 b (List.mem_cons_self b rest)
      have hne : consecDiffs (a :: b :: rest) = (b - a) :: consecDiffs (b :: rest) :=
        consecDiffs_sorted_cons a b rest hab
      have hmin : ∃ m, minimumList (consecDiffs (a :: b :: rest)) = some m := by
        rw [hne]
        exact ⟨_, rfl⟩
      rcases hmin with ⟨m, hm⟩
      have hunit : inferIndentUnit lines = m := by
        simp [inferIndentUnit, hSI, hm]
      rw [hunit]
      rcases minimumList_spec _ m hm with ⟨hmem, hbound⟩
      refine minimumList_eq_of _ m (consecDiffs_subset_pairs _ hsorted m hmem) ?_
      intro x hx
      rcases pairDiffs_mem_inv _ x hx with ⟨p, q, hp, hq, hpq, rfl⟩
      rcases consecDiffs_le_pairs _ hsorted p q hp hq hpq with ⟨d, hd, hdle⟩
      exact le_trans (hbound d hd) hdle
  · rcases hSI : sortedIndents lines with _ | ⟨a, _ | ⟨b, rest⟩⟩
    · simp [inferIndentUnit, hSI]
    · have : 0 < a := by
        apply hpos
        rw [hSI]
        exact List.mem_cons_self a []
      simp [inferIndentUnit, hSI]
      omega
    · rcases hm : minimumList (consecDiffs (a :: b :: rest)) with _ | m
      · have : 0 < a := by
          apply hpos
          rw [hSI]
          exact List.mem_cons_self a _
        simp [inferIndentUnit, hSI, hm]
        omega
      · have hmem := (minimumList_spec _ m hm).1
        have : 0 < m := consecDiffs_pos _ m hmem
        simp [inferIndentUnit, hSI, hm]
        omega

/-- C5 witness: the 0/2/4/8 document has two or more distinct positive
indents, and the inferred unit 2 is the minimum positive pairwise
difference. -/
theorem indent_unit_inference_witness :
    (∀ s ∈ ([⟨"a", 0, 1⟩, ⟨"b", 2, 2⟩, ⟨"c", 4, 3⟩, ⟨"d", 8, 4⟩] : List SourceLine),
        s.indent = 0) = False ∧
    2 ≤ (sortedIndents [⟨"a", 0, 1⟩, ⟨"b", 2, 2⟩, ⟨"c", 4, 3⟩, ⟨"d", 8, 4⟩]).length ∧
    minimumList (pairDiffs (sortedIndents
        [⟨"a", 0, 1⟩, ⟨"b", 2, 2⟩, ⟨"c", 4, 3⟩, ⟨"d", 8, 4⟩])) =
      some (inferIndentUnit [⟨"a", 0, 1⟩, ⟨"b", 2, 2⟩, ⟨"c", 4, 3⟩, ⟨"d", 8, 4⟩]) := by
  refine ⟨by simp, by decide, ?_⟩
  exact (indent_unit_inference
    [⟨"a", 0, 1⟩, ⟨"b", 2, 2⟩, ⟨"c", 4, 3⟩, ⟨"d", 8, 4⟩]).2.2.1 (by decide)

/-- C6: condition parsing splits on "or" then "and" with the internal
"and" of a between-range protected; the decisive condition parses to the
conjunction of the between-range test and the test of Y, the protected
split produces exactly the two conjuncts, and the conjuncts parse to the
range test and the boolean test respectively. -/
theorem condition_between_and_conjunction :
    parseCondition "x is between 1 and 10 and y is true"
      = "(1 <= x <= 10) and (y == True)" ∧
    (splitSepWord "and"
        (protectBetweenWords (strWords "x is between 1 and 10 and y is true"))).map unwords
      = ["x is between 1 __between_and__ 10", "y is true"] ∧
    parseCondition "x is between 1 and 10" = "1 <= x <= 10" ∧
    parseCondition "y is true" = "y == True" := by
  refine ⟨by decide, by decide, by decide, by decide⟩

theorem transpileLine_consumed_slc_none (line : SourceLine) (allLines : List SourceLine)
    (index unit : Nat) (stack : List Block)
    (h : slcMatch (stripWS line.content) = none) :
    (transpileLine line allLines index unit stack).consumed = 1 := by
  simp only [transpileLine, h]
  split_ifs with h1 h2 h3 h4
  · rfl
  · rcases hs : splitFirstChar '=' (stripWS line.content).data with _ | ⟨l, r⟩ <;> simp [hs]
  · simp only [renderBlockHeader]
    split_ifs <;> rfl
  · rfl
  · rfl

theorem transpileLine_consumed_slc_some (line : SourceLine) (allLines : List SourceLine)
    (index unit : Nat) (stack : List Block) (g : String × String × String × String)
    (h : slcMatch (stripWS line.content) = some g) :
    ((∃ nl, allLines.get? (index + 1) = some nl ∧
        (elseInlineMatch (stripWS nl.content)).isSome) →
      (transpileLine line allLines index unit stack).consumed = 2) ∧
    ((¬ ∃ nl, allLines.get? (index + 1) = some nl ∧
        (elseInlineMatch (stripWS nl.content)).isSome) →
      (transpileLine line allLines index unit stack).consumed = 1) := by
  rcases g with ⟨left, opw, right, retv⟩
  simp only [transpileLine, h]
  cases hnl : allLines.get? (index + 1) with
  | none => simp [hnl]
  | some nl =>
    cases hm : elseInlineMatch (stripWS nl.content) with
    | none => simp [hnl, hm]
    | some v => simp [hnl, hm]

theorem transpileGo_total (dispatch : Dispatch)
    (hd : ∀ l al i u st, 1 ≤ (dispatch l al i u st).consumed)
    (lines : List SourceLine) (unit : Nat) :
    ∀ (fuel i : Nat) (stack : List Block), lines.length - i ≤ fuel →
      (transpileGo dispatch lines unit fuel i stack).isSome := by
  intro fuel
  induction fuel with
  | zero =>
    intro i stack h
    have hnone : lines.get? i = none := List.get?_eq_none.2 (by omega)
    simp only [transpileGo]
    rw [hnone]
    rfl
  | succ f ih =>
    intro i stack h
    cases hg : lines.get? i with
    | none =>
      simp only [transpileGo]
      rw [hg]
      rfl
    | some line =>
      have hi : i < lines.length := by
        by_contra hc
        push_neg at hc
        rw [List.get?_eq_none.2 hc] at hg
        cases hg
      have hc := hd line lines i unit (popWhile line.indent stack)
      have hrec := ih (i + (dispatch line lines i unit (popWhile line.indent stack)).consumed)
        (pushIfOpens line (dispatch line lines i unit (popWhile line.indent stack))
          (popWhile line.indent stack)) (by omega)
      rcases Option.isSome_iff_exists.1 hrec with ⟨body, hbody⟩
      simp only [transpileGo, hg]
      rw [hbody]
      rfl

/-- C10: every TranspileResult reports consumed at least 1 — exactly 1
except the string-length-comparison idiom absorbing a following
otherwise-line, which reports 2 — so the per-line loop strictly advances
and completes within fuel equal to the number of source lines on every
document. -/
theorem transpile_consumed_terminates :
    (∀ (line : SourceLine) (allLines : List SourceLine) (index unit : Nat)
        (stack : List Block),
      1 ≤ (transpileLine line allLines index unit stack).consumed ∧
      ((transpileLine line allLines index unit stack).consumed = 2 ↔
        (slcMatch (stripWS line.content)).isSome ∧
          ∃ nl, allLines.get? (index + 1) = some nl ∧
            (elseInlineMatch (stripWS nl.content)).isSome)) ∧
    (∀ (lines : List SourceLine) (unit fuel i : Nat) (stack : List Block),
      lines.length - i ≤ fuel →
        (transpileGo transpileLine lines unit fuel i stack).isSome) := by
  have hone : ∀ (line : SourceLine) (allLines : List SourceLine) (index unit : Nat)
      (stack : List Block), 1 ≤ (transpileLine line allLines index unit stack).consumed := by
    intro line allLines index unit stack
    cases h : slcMatch (stripWS line.content) with
    | none => rw [transpileLine_consumed_slc_none line allLines index unit stack h]
    | some g =>
      rcases transpileLine_consumed_slc_some line allLines index unit stack g h with ⟨h2, h1⟩
      by_cases hnl : ∃ nl, allLines.get? (index + 1) = some nl ∧
          (elseInlineMatch (stripWS nl.content)).isSome
      · rw [h2 hnl]
        omega
      · rw [h1 hnl]
  refine ⟨fun line allLines index unit stack => ⟨hone line allLines index unit stack, ?_⟩,
    fun lines unit fuel i stack h =>
      transpileGo_total transpileLine (fun l al i u st => hone l al i u st) lines unit fuel i stack h⟩
  cases h : slcMatch (stripWS line.content) with
  | none =>
    rw [transpileLine_consumed_slc_none line allLines index unit stack h]
    exact iff_of_false (by omega) (fun hc => by simp [h] at hc)
  | some g =>
    rcases transpileLine_consumed_slc_some line allLines index unit stack g h with ⟨h2, h1⟩
    by_cases hnl : ∃ nl, allLines.get? (index + 1) = some nl ∧
        (elseInlineMatch (stripWS nl.content)).isSome
    · rw [h2 hnl]
      exact iff_of_true rfl ⟨by simp [h], hnl⟩
    · rw [h1 hnl]
      exact iff_of_false (by omega) (fun hc => hnl hc.2)

/-- C10 witness: on the one-line document the loop completes with fuel
equal to the line count, and the string-length-comparison idiom with a
following otherwise-line reports consumed 2. -/
theorem transpile_consumed_terminates_witness :
    ([(⟨"alpha", 0, 1⟩ : SourceLine)].length - 0 ≤ 1) ∧
    (transpileGo transpileLine [⟨"alpha", 0, 1⟩] 4 1 0 []).isSome ∧
    (transpileLine ⟨"if the length of string a is bigger than string b return a", 0, 1⟩
      [⟨"if the length of string a is bigger than string b return a", 0, 1⟩,
        ⟨"otherwise return b", 0, 2⟩] 0 4 []).consumed = 2 := by
  refine ⟨by decide, transpile_consumed_terminates.2 [⟨"alpha", 0, 1⟩] 4 1 0 [] (by decide), ?_⟩
  exact (transpile_consumed_terminates.1
    ⟨"if the length of string a is bigger than string b return a", 0, 1⟩
    [⟨"if the length of string a is bigger than string b return a", 0, 1⟩,
      ⟨"otherwise return b", 0, 2⟩] 0 4 []).2.2 (by decide)

theorem stackInvB_tail (a : Block) (rest : List Block)
    (h : stackInvB (a :: rest) = true) : stackInvB rest = true := by
  cases rest with
  | nil => rfl
  | cons b bs =>
    simp [stackInvB] at h
    simp [stackInvB, h.2]

theorem stackInvB_below (a : Block) (rest : List Block)
    (h : stackInvB (a :: rest) = true) : ∀ b ∈ rest, b.indent < a.indent := by
  induction rest generalizing a with
  | nil => simp
  | cons c cs ih =>
    simp only [stackInvB, Bool.and_eq_true, decide_eq_true_eq] at h
    intro b hb
    rcases List.mem_cons.1 hb with rfl | hb'
    · exact h.1
    · exact lt_trans (ih c h.2 b hb') h.1

theorem popWhile_sub (ind : Nat) (stack : List Block) :
    ∀ b ∈ popWhile ind stack, b ∈ stack := by
  induction stack with
  | nil => simp [popWhile]
  | cons a rest ih =>
    intro b hb
    unfold popWhile at hb
    split_ifs at hb with hle
    · exact List.mem_cons_of_mem a (ih b hb)
    · exact hb

theorem popWhile_lt (ind : Nat) (stack : List Block) (h : stackInvB stack = true) :
    ∀ b ∈ popWhile ind stack, b.indent < ind := by
  induction stack with
  | nil => simp [popWhile]
  | cons a rest ih =>
    intro b hb
    unfold popWhile at hb
    split_ifs at hb with hle
    · exact ih (stackInvB_tail a rest h) b hb
    · rcases List.mem_cons.1 hb with rfl | hb'
      · omega
      · have := stackInvB_below a rest h b hb'
        omega

theorem popWhile_keep (ind : Nat) (stack : List Block) (h : stackInvB stack = true) :
    ∀ b ∈ stack, b.indent < ind → b ∈ popWhile ind stack := by
  induction stack with
  | nil => simp
  | cons a rest ih =>
    intro b hb hlt
    unfold popWhile
    split_ifs with hle
    · rcases List.mem_cons.1 hb with rfl | hb'
      · omega
      · exact ih (stackInvB_tail a rest h) b hb' hlt
    · exact hb

theorem popWhile_inv (ind : Nat) (stack : List Block) (h : stackInvB stack = true) :
    stackInvB (popWhile ind stack) = true := by
  induction stack with
  | nil => simp [popWhile, stackInvB]
  | cons a rest ih =>
    unfold popWhile
    split_ifs with hle
    · exact ih (stackInvB_tail a rest h)
    · exact h

theorem step_inv (line : SourceLine) (r : TranspileResult) (stack : List Block)
    (h : stackInvB stack = true) :
    stackInvB (pushIfOpens line r (popWhile line.indent stack)) = true := by
  unfold pushIfOpens
  split_ifs with ho
  · rcases hpop : popWhile line.indent stack with _ | ⟨c, cs⟩
    · simp [stackInvB]
    · have hc : c.indent < line.indent := by
        apply popWhile_lt line.indent stack h
        rw [hpop]
        exact List.mem_cons_self c cs
      have hpinv : stackInvB (c :: cs) = true := by
        rw [← hpop]
        exact popWhile_inv line.indent stack h
      simp [stackInvB, hc, hpinv]
  · exact popWhile_inv line.indent stack h

theorem stack_indent_inj (stack : List Block) (h : stackInvB stack = true) :
    ∀ a b, a ∈ stack → b ∈ stack → a.indent = b.indent → a = b := by
  induction stack with
  | nil => simp
  | cons x rest ih =>
    intro a b ha hb heq
    rcases List.mem_cons.1 ha with rfl | ha' <;> rcases List.mem_cons.1 hb with rfl | hb'
    · rfl
    · have := stackInvB_below a rest h b hb'
      omega
    · have := stackInvB_below b rest h a ha'
      omega
    · exact ih (stackInvB_tail x rest h) a b ha' hb' heq

theorem goStacks_inv (dispatch : Dispatch) (lines : List SourceLine) (unit : Nat) :
    ∀ (fuel i : Nat) (stack : List Block), stackInvB stack = true →
      ∀ st ∈ goStacks dispatch lines unit fuel i stack, stackInvB st = true := by
  intro fuel
  induction fuel with
  | zero => simp [goStacks]
  | succ f ih =>
    intro i stack h st hst
    cases hg : lines.get? i with
    | none =>
      simp only [goStacks] at hst
      rw [hg] at hst
      simp at hst
    | some line =>
      simp only [goStacks, hg] at hst
      rcases List.mem_cons.1 hst with rfl | hst'
      · exact popWhile_inv line.indent stack h
      · rcases List.mem_cons.1 hst' with rfl | hst''
        · exact step_inv line _ stack h
        · exact ih _ _ (step_inv line _ stack h) st hst''

/-- C4: before dispatch, every open block whose indent is at least the
current line's indent is popped, and exactly those below it survive; the
pop followed by an optional push at the current indent preserves the
strictly-increasing (bottom to top) stack discipline; a strictly nested
stack never holds two blocks with the same indent; every stack the
per-line loop encounters from a strictly nested start is strictly nested;
and a line at indent 0 over blocks opened at indents 2 and 4 closes
both. -/
theorem block_stack_pop_invariant (ind : Nat) (stack : List Block)
    (h : stackInvB stack = true) :
    (∀ b ∈ stack, ind ≤ b.indent → b ∉ popWhile ind stack) ∧
    (∀ b, b ∈ popWhile ind stack ↔ b ∈ stack ∧ b.indent < ind) ∧
    (∀ (line : SourceLine) (r : TranspileResult),
      stackInvB (pushIfOpens line r (popWhile line.indent stack)) = true) ∧
    (∀ a b, a ∈ stack → b ∈ stack → a.indent = b.indent → a = b) ∧
    (∀ (dispatch : Dispatch) (lines : List SourceLine) (unit fuel i : Nat),
      ∀ st ∈ goStacks dispatch lines unit fuel i stack, stackInvB st = true) ∧
    popWhile 0 [⟨4, "block", none, none⟩, ⟨2, "block", none, none⟩] = ([] : List Block) := by
  refine ⟨?_, ?_, ?_, stack_indent_inj stack h,
    fun dispatch lines unit fuel i => goStacks_inv dispatch lines unit fuel i stack h,
    by decide⟩
  · intro b hb hge hmem
    have := popWhile_lt ind stack h b hmem
    omega
  · intro b
    constructor
    · intro hb
      exact ⟨popWhile_sub ind stack b hb, popWhile_lt ind stack h b hb⟩
    · intro ⟨hb, hlt⟩
      exact popWhile_keep ind stack h b hb hlt
  · intro line r
    exact step_inv line r stack h

/-- C4 witness: the two-block stack opened at indents 2 and 4 is strictly
nested, and a line at indent 0 closes both before dispatch. -/
theorem block_stack_pop_invariant_witness :
    stackInvB [⟨4, "block", none, none⟩, ⟨2, "block", none, none⟩] = true ∧
    popWhile 0 [⟨4, "block", none, none⟩, ⟨2, "block", none, none⟩] = ([] : List Block) := by
  refine ⟨by decide, ?_⟩
  exact (block_stack_pop_invariant 0
    [⟨4, "block", none, none⟩, ⟨2, "block", none, none⟩] (by decide)).2.2.2.2.2

theorem tokenizeAux_spec (rls : List String) : ∀ (idx : Nat), ∀ s ∈ tokenizeAux idx rls,
    idx ≤ s.line_no ∧ ∃ raw, rls.get? (s.line_no - idx) = some raw ∧
      lstripWS raw = s.content ∧ countIndent raw = s.indent := by
  induction rls with
  | nil => simp [tokenizeAux]
  | cons raw rest ih =>
    intro idx s hs
    have hskip : s ∈ tokenizeAux (idx + 1) rest →
        idx ≤ s.line_no ∧ ∃ raw2, (raw :: rest).get? (s.line_no - idx) = some raw2 ∧
          lstripWS raw2 = s.content ∧ countIndent raw2 = s.indent := by
      intro hmem
      rcases ih (idx + 1) s hmem with ⟨hle, raw2, hget, hc, hi⟩
      refine ⟨by omega, raw2, ?_, hc, hi⟩
      have harith : s.line_no - idx = (s.line_no - (idx + 1)) + 1 := by omega
      rw [harith, List.get?_cons_succ]
      exact hget
    simp only [tokenizeAux] at hs
    split_ifs at hs with h1 h2
    · exact hskip hs
    · exact hskip hs
    · rcases List.mem_cons.1 hs with rfl | hs'
      · exact ⟨le_refl _, raw, by simp, rfl, rfl⟩
      · exact hskip hs'

theorem tokenize_offByZero (text : String) : ∀ s ∈ tokenizeLines text,
    1 ≤ s.line_no ∧ ∃ raw, (physLines text).get? (s.line_no - 1) = some raw ∧
      lstripWS raw = s.content ∧ countIndent raw = s.indent :=
  tokenizeAux_spec (physLines text) 1

theorem transpileGo_tags (dispatch : Dispatch) (lines : List SourceLine) (unit : Nat) :
    ∀ (fuel i : Nat) (stack : List Block) (body : List (String × Option SourceLine)),
      transpileGo dispatch lines unit fuel i stack = some body →
      ∀ p ∈ body, ∃ line ∈ lines, p.2 = some line := by
  intro fuel
  induction fuel with
  | zero =>
    intro i stack body h
    unfold transpileGo at h
    split_ifs at h
    have hb : body = [] := (Option.some.inj h).symm
    subst hb
    intro p hp
    simp at hp
  | succ f ih =>
    intro i stack body h
    unfold transpileGo at h
    cases hg : lines.get? i with
    | none =>
      rw [hg] at h
      cases h
      simp
    | some line =>
      rw [hg] at h
      rcases Option.map_eq_some'.1 h with ⟨more, hmore, rfl⟩
      intro p hp
      rcases List.mem_append.1 hp with hout | hrest
      · rcases List.mem_map.1 hout with ⟨o, _, rfl⟩
        exact ⟨line, List.get?_mem hg, rfl⟩
      · exact ih _ _ _ hmore p hrest

theorem preludePairs_synthetic (imports : List String) (fa : Bool) :
    ∀ p ∈ preludePairs imports fa, p.2 = none := by
  intro p hp
  unfold preludePairs at hp
  rcases List.mem_append.1 hp with h | h
  · split at h
    · simp at h
    · rcases List.mem_append.1 h with h2 | h2
      · rcases List.mem_map.1 h2 with ⟨s, _, rfl⟩
        rfl
      · rcases List.mem_singleton.1 h2 with rfl
        rfl
  · split at h
    · simp at h
      rcases h with rfl | rfl <;> rfl
    · simp at h

theorem trailerPairs_synthetic (fa fr : Bool) (unit : Nat) :
    ∀ p ∈ trailerPairs fa fr unit, p.2 = none := by
  intro p hp
  unfold trailerPairs at hp
  split_ifs at hp
  · simp at hp
    rcases hp with rfl | rfl | rfl <;> rfl
  · simp at hp

/-- C2: every output line of `transpile` carries either the SourceLine
that was current when it was emitted — a tokenized line whose `line_no`
is its exact 1-based physical position in the document (off-by-zero) —
or no origin, and the origin-free lines are exactly the synthetic
preamble and trailer; every key of the line map is a 1-based in-range
generated line number. -/
theorem transpile_line_map (imports : List String) (fa fr : Bool) (dispatch : Dispatch)
    (text : String) (out : List (String × Option SourceLine))
    (h : transpileCore imports fa fr dispatch (tokenizeLines text)
        (inferIndentUnit (tokenizeLines text)) = some out) :
    ∃ body,
      out = preludePairs imports fa ++ body ++
        trailerPairs fa fr (inferIndentUnit (tokenizeLines text)) ∧
      (∀ p ∈ preludePairs imports fa, p.2 = none) ∧
      (∀ p ∈ trailerPairs fa fr (inferIndentUnit (tokenizeLines text)), p.2 = none) ∧
      (∀ p ∈ body, ∃ s, p.2 = some s ∧ s ∈ tokenizeLines text ∧
        1 ≤ s.line_no ∧ ∃ raw, (physLines text).get? (s.line_no - 1) = some raw ∧
          lstripWS raw = s.content ∧ countIndent raw = s.indent) ∧
      (∀ k, (lineMapLookup out k).isSome → 1 ≤ k ∧ k ≤ out.length) := by
  unfold transpileCore at h
  rcases Option.map_eq_some'.1 h with ⟨body, hbody, rfl⟩
  refine ⟨body, rfl, preludePairs_synthetic imports fa, trailerPairs_synthetic fa fr _,
    ?_, ?_⟩
  · intro p hp
    rcases transpileGo_tags dispatch (tokenizeLines text) _ _ _ _ _ hbody p hp with
      ⟨line, hline, hp2⟩
    rcases tokenize_offByZero text line hline with ⟨h1, raw, hraw⟩
    exact ⟨line, hp2, hline, h1, raw, hraw⟩
  · intro k hk
    unfold lineMapLookup at hk
    split_ifs at hk with h1
    · refine ⟨h1, ?_⟩
      rcases hq : (preludePairs imports fa ++ body ++
          trailerPairs fa fr (inferIndentUnit (tokenizeLines text))).get? (k - 1) with
        _ | ⟨a, s⟩
      · rw [hq] at hk
        simp at hk
      · have hlt := (List.get?_eq_some.1 hq).1
        omega
    · simp at hk

/-- C2 witness: a one-line document with a constant dispatch produces one
generated line, mapped to the SourceLine at physical position 1. -/
theorem transpile_line_map_witness :
    transpileCore [] false true (fun _ _ _ _ _ => { lines := [OutputLine.mk 0 "pass"] })
        (tokenizeLines "alpha") (inferIndentUnit (tokenizeLines "alpha"))
      = some [("pass", some ⟨"alpha", 0, 1⟩)] ∧
    ∃ body,
      [(("pass" : String), some (⟨"alpha", 0, 1⟩ : SourceLine))]
        = preludePairs [] false ++ body ++
          trailerPairs false true (inferIndentUnit (tokenizeLines "alpha")) ∧
      (∀ p ∈ preludePairs ([] : List String) false, p.2 = none) ∧
      (∀ p ∈ trailerPairs false true (inferIndentUnit (tokenizeLines "alpha")), p.2 = none) ∧
      (∀ p ∈ body, ∃ s, p.2 = some s ∧ s ∈ tokenizeLines "alpha" ∧
        1 ≤ s.line_no ∧ ∃ raw, (physLines "alpha").get? (s.line_no - 1) = some raw ∧
          lstripWS raw = s.content ∧ countIndent raw = s.indent) ∧
      (∀ k, (lineMapLookup [(("pass" : String), some (⟨"alpha", 0, 1⟩ : SourceLine))] k).isSome →
        1 ≤ k ∧ k ≤ [(("pass" : String), some (⟨"alpha", 0, 1⟩ : SourceLine))].length) := by
  refine ⟨by decide, ?_⟩
  exact transpile_line_map [] false true (fun _ _ _ _ _ => { lines := [OutputLine.mk 0 "pass"] })
    "alpha" [("pass", some ⟨"alpha", 0, 1⟩)] (by decide)

theorem strLitInner_skip_escape (d : Char) (rest : List Char) :
    strLitInner ('\\' :: d :: rest) = strLitInner rest := rfl

theorem strLitInner_plain (c : Char) (rest : List Char) (h1 : c ≠ '\\') (h2 : c ≠ '"')
    (h3 : c ≠ '\n') (h4 : c ≠ '\r') :
    strLitInner (c :: rest) = strLitInner rest := by
  rw [strLitInner.eq_def]
  simp [h1, h2, h3, h4]

theorem strLitInner_escaped (cs : List Char) (h : ∀ c ∈ cs, c ≠ '\n' ∧ c ≠ '\r') :
    strLitInner (replaceCharList '"' ['\\', '"']
      (replaceCharList '\\' ['\\', '\\'] cs) ++ ['"']) = true := by
  induction cs with
  | nil => rfl
  | cons c cs ih =>
    have hc := h c (List.mem_cons_self c cs)
    have hcs : ∀ x ∈ cs, x ≠ '\n' ∧ x ≠ '\r' := fun x hx => h x (List.mem_cons_of_mem c hx)
    by_cases h1 : c = '\\'
    · subst h1
      have e1 : replaceCharList '\\' ['\\', '\\'] ('\\' :: cs)
          = '\\' :: '\\' :: replaceCharList '\\' ['\\', '\\'] cs := by
        simp [replaceCharList]
      have e2 : replaceCharList '"' ['\\', '"']
            ('\\' :: '\\' :: replaceCharList '\\' ['\\', '\\'] cs)
          = '\\' :: '\\' :: replaceCharList '"' ['\\', '"']
              (replaceCharList '\\' ['\\', '\\'] cs) := by
        simp [replaceCharList]
      rw [e1, e2, List.cons_append, List.cons_append, strLitInner_skip_escape]
      exact ih hcs
    · by_cases h2 : c = '"'
      · subst h2
        have e1 : replaceCharList '\\' ['\\', '\\'] ('"' :: cs)
            = '"' :: replaceCharList '\\' ['\\', '\\'] cs := by
          simp [replaceCharList]
        have e2 : replaceCharList '"' ['\\', '"']
              ('"' :: replaceCharList '\\' ['\\', '\\'] cs)
            = '\\' :: '"' :: replaceCharList '"' ['\\', '"']
                (replaceCharList '\\' ['\\', '\\'] cs) := by
          simp [replaceCharList]
        rw [e1, e2, List.cons_append, List.cons_append, strLitInner_skip_escape]
        exact ih hcs
      · have e1 : replaceCharList '\\' ['\\', '\\'] (c :: cs)
            = c :: replaceCharList '\\' ['\\', '\\'] cs := by
          simp [replaceCharList, h1]
        have e2 : replaceCharList '"' ['\\', '"'] (c :: replaceCharList '\\' ['\\', '\\'] cs)
            = c :: replaceCharList '"' ['\\', '"'] (replaceCharList '\\' ['\\', '\\'] cs) := by
          simp [replaceCharList, h2]
        rw [e1, e2, List.cons_append, strLitInner_plain c _ h1 h2 hc.1 hc.2]
        exact ih hcs

theorem lexScan_skip_escape (q d : Char) (rest : List Char) :
    lexScan (some q) ('\\' :: d :: rest) = lexScan (some q) rest := rfl

theorem lexScan_plain (q c : Char) (rest : List Char) (h1 : c ≠ '\\') (h2 : c ≠ q)
    (h3 : c ≠ '\n') : lexScan (some q) (c :: rest) = lexScan (some q) rest := by
  rw [lexScan.eq_def]
  simp [h1, h2, h3]

theorem lexScan_escaped (cs : List Char) (h : ∀ c ∈ cs, c ≠ '\n') :
    lexScan (some '"') (replaceCharList '"' ['\\', '"']
      (replaceCharList '\\' ['\\', '\\'] cs) ++ ['"']) = true := by
  induction cs with
  | nil => rfl
  | cons c cs ih =>
    have hc := h c (List.mem_cons_self c cs)
    have hcs : ∀ x ∈ cs, x ≠ '\n' := fun x hx => h x (List.mem_cons_of_mem c hx)
    by_cases h1 : c = '\\'
    · subst h1
      have e1 : replaceCharList '\\' ['\\', '\\'] ('\\' :: cs)
          = '\\' :: '\\' :: replaceCharList '\\' ['\\', '\\'] cs := by
        simp [replaceCharList]
      have e2 : replaceCharList '"' ['\\', '"']
            ('\\' :: '\\' :: replaceCharList '\\' ['\\', '\\'] cs)
          = '\\' :: '\\' :: replaceCharList '"' ['\\', '"']
              (replaceCharList '\\' ['\\', '\\'] cs) := by
        simp [replaceCharList]
      rw [e1, e2, List.cons_append, List.cons_append, lexScan_skip_escape]
      exact ih hcs
    · by_cases h2 : c = '"'
      · subst h2
        have e1 : replaceCharList '\\' ['\\', '\\'] ('"' :: cs)
            = '"' :: replaceCharList '\\' ['\\', '\\'] cs := by
          simp [replaceCharList]
        have e2 : replaceCharList '"' ['\\', '"']
              ('"' :: replaceCharList '\\' ['\\', '\\'] cs)
            = '\\' :: '"' :: replaceCharList '"' ['\\', '"']
                (replaceCharList '\\' ['\\', '\\'] cs) := by
          simp [replaceCharList]
        rw [e1, e2, List.cons_append, List.cons_append, lexScan_skip_escape]
        exact ih hcs
      · have e1 : replaceCharList '\\' ['\\', '\\'] (c :: cs)
            = c :: replaceCharList '\\' ['\\', '\\'] cs := by
          simp [replaceCharList, h1]
        have e2 : replaceCharList '"' ['\\', '"'] (c :: replaceCharList '\\' ['\\', '\\'] cs)
            = c :: replaceCharList '"' ['\\', '"'] (replaceCharList '\\' ['\\', '\\'] cs) := by
          simp [replaceCharList, h2]
        rw [e1, e2, List.cons_append, lexScan_plain '"' c _ h1 h2 hc]
        exact ih hcs

theorem quote_data (v : String) : (quoteString v).data
    = '"' :: (replaceCharList '"' ['\\', '"']
        (replaceCharList '\\' ['\\', '\\'] v.data) ++ ['"']) := by
  simp only [quoteString]
  rw [String.data_append, String.data_append]
  simp

/-- C1 counterexample: the one-line document consisting of a single
double-quote character transpiles to generated text consisting of that
same single character (the quoted-passthrough check of
`_parse_expression` treats a 1-character quote as already quoted), and
that text ends inside an unterminated string literal, so the trial parse
in the target grammar fails — translation is not total. -/
theorem transpile_totality_counterexample :
    transpileDocument [] "\"" = some "\"" ∧
    hasAsciiLetter "\"" = false ∧
    detectFlaskApp (tokenizeLines "\"") = false ∧
    pyLexOk "\"" = false ∧
    isPyStringLit "\"" = false := by
  refine ⟨by decide, by decide, by decide, by decide, by decide⟩

/-- C1 amended: every line the quoting fallback emits through
`_quote_string` — any source text free of line terminators, with embedded
quotes and backslashes escaped — is a complete, syntactically valid
string literal of the target grammar. -/
theorem quote_fallback_emits_valid_literal (s : String)
    (h : ∀ c ∈ s.data, c ≠ '\n' ∧ c ≠ '\r') :
    isPyStringLit (quoteString s) = true ∧ pyLexOk (quoteString s) = true := by
  constructor
  · unfold isPyStringLit
    rw [quote_data]
    exact strLitInner_escaped s.data h
  · unfold pyLexOk
    rw [quote_data]
    have hstep : lexScan none ('"' :: (replaceCharList '"' ['\\', '"']
          (replaceCharList '\\' ['\\', '\\'] s.data) ++ ['"']))
        = lexScan (some '"') (replaceCharList '"' ['\\', '"']
            (replaceCharList '\\' ['\\', '\\'] s.data) ++ ['"']) := by
      simp [lexScan]
    rw [hstep]
    exact lexScan_escaped s.data (fun c hc => (h c hc).1)

/-- C1 amended witness: a text with embedded quotes and a backslash
quotes to a valid string literal. -/
theorem quote_fallback_witness :
    (∀ c ∈ ("say \"hi\" \\ now" : String).data, c ≠ '\n' ∧ c ≠ '\r') ∧
    isPyStringLit (quoteString "say \"hi\" \\ now") = true ∧
    pyLexOk (quoteString "say \"hi\" \\ now") = true := by
  refine ⟨by decide, ?_, ?_⟩
  · exact (quote_fallback_emits_valid_literal "say \"hi\" \\ now" (by decide)).1
  · exact (quote_fallback_emits_valid_literal "say \"hi\" \\ now" (by decide)).2

theorem strAppend_ne_empty_of_right (a b : String) (h : b ≠ "") : a ++ b ≠ "" := by
  intro hcontra
  apply h
  cases a with
  | mk da =>
    cases b with
    | mk db =>
      have : da ++ db = [] := by
        have := congrArg String.data hcontra
        simpa using this
      rcases List.append_eq_nil.1 this with ⟨_, rfl⟩
      rfl

theorem getExecGlobalsEnv_fst (rt : RTState) (sm : Bool) :
    (getExecGlobalsEnv rt sm).fst = rt.globals := by
  unfold getExecGlobalsEnv
  split_ifs <;> rfl

/-- C3: on failure the diagnostic derives from the innermost frame of the
generated unit; a mapped generated line is rendered as
`"<unit>:<original_line_no>"`, the `Plain:`-tagged original pseudocode
text, and `"<FailureKind>: <message>"`, newline-joined; an unmapped
generated line falls back to the raw generated line number; the
diagnostic is stored in `last_error` and appended to the captured
stderr. -/
theorem runtime_diagnostic_format (excT excM filename : String)
    (m : List (Nat × SourceLine)) (srcs : Option (List String))
    (frames : List (String × Nat)) (n : Nat) (s : SourceLine)
    (hf : filename ≠ "") (hm : m.isEmpty = false)
    (hfr : findFrame filename frames = some (filename, n)) :
    (lookupMapping n m = some s → s.content ≠ "" →
      formatException excT excM filename (some m) srcs frames =
        joinStr "\n" [filename ++ ":" ++ toString s.line_no,
          "Plain: " ++ (spaces s.indent ++ s.content), excT ++ ": " ++ excM]) ∧
    (lookupMapping n m = none →
      formatException excT excM filename (some m) srcs frames =
        joinStr "\n" [filename ++ " (python line " ++ toString n ++ ")",
          excT ++ ": " ++ excM]) ∧
    (∀ (rt : RTState) (prog : Globals → ProgResult) (e : PyExc) (safeMode : Bool),
      (prog rt.globals).exc = some e →
        (executeModel rt prog safeMode none (some filename) (some m) srcs).1.lastError
          = some (formatException e.excType e.msg filename (some m) srcs e.frames) ∧
        (executeModel rt prog safeMode none (some filename) (some m) srcs).2.stderr
          = appendDiag (prog rt.globals).stderr
              (formatException e.excType e.msg filename (some m) srcs e.frames)) := by
  have hpy : fmtPyLine filename frames = some n := by
    unfold fmtPyLine
    rw [hfr]
    rfl
  refine ⟨?_, ?_, ?_⟩
  · intro hlk hnc
    have ht : spaces s.indent ++ s.content ≠ "" := strAppend_ne_empty_of_right _ _ hnc
    have hsl : fmtSourceLine (some m) (some n) = some s := by
      simp [fmtSourceLine, hm, hlk]
    have hop : fmtOriginalPair (some m) srcs (some n)
        = some (s.line_no, spaces s.indent ++ s.content) := by
      simp [fmtOriginalPair, hsl]
    simp only [formatException, hpy, hop, fmtLocation, fmtFirstPart, fmtMiddleParts,
      if_neg hf, if_neg ht]
    rfl
  · intro hlk
    have hsl : fmtSourceLine (some m) (some n) = none := by
      simp [fmtSourceLine, hm, hlk]
    have hop : fmtOriginalPair (some m) srcs (some n) = none := by
      rcases srcs with _ | lst
      · simp [fmtOriginalPair, hsl]
      · simp [fmtOriginalPair, hsl, mappingFalsy, hm]
    simp only [formatException, hpy, hop, fmtLocation, fmtFirstPart, fmtMiddleParts,
      if_neg hf]
    rfl
  · intro rt prog e safeMode hexc
    have hg : prog (getExecGlobalsEnv rt safeMode).fst = prog rt.globals := by
      rw [getExecGlobalsEnv_fst]
    simp only [executeModel, hg, hexc, if_neg hf]
    constructor <;> trivial

/-- C3 witness: a two-frame traceback whose innermost matching frame sits
at generated line 3, mapped to original line 7, renders the three-line
diagnostic. -/
theorem runtime_diagnostic_format_witness :
    findFrame "unit.py" [("other.py", 9), ("unit.py", 3)] = some ("unit.py", 3) ∧
    lookupMapping 3 [(3, ⟨"let x be 5", 2, 7⟩)] = some ⟨"let x be 5", 2, 7⟩ ∧
    formatException "ValueError" "boom" "unit.py" (some [(3, ⟨"let x be 5", 2, 7⟩)]) none
        [("other.py", 9), ("unit.py", 3)]
      = "unit.py:7\nPlain:   let x be 5\nValueError: boom" := by
  refine ⟨by decide, by decide, ?_⟩
  have h := (runtime_diagnostic_format "ValueError" "boom" "unit.py"
    [(3, ⟨"let x be 5", 2, 7⟩)] none [("other.py", 9), ("unit.py", 3)] 3 ⟨"let x be 5", 2, 7⟩
    (by decide) (by decide) (by decide)).1 (by decide) (by decide)
  rw [h]
  rfl

/-- C7: when the worker misses the deadline, execute returns the
TimeoutError with its exact message and unconditionally resets the
namespace, so the exec globals of any subsequent call on the same runtime
are the freshly initialised namespace; no cancellation transition exists
in the model — the worker is only abandoned. -/
theorem execute_timeout_resets (rt : RTState) (prog : Globals → ProgResult)
    (safeMode : Bool) (cfg : TimeoutCfg) (filename : Option String)
    (mapping : Option (List (Nat × SourceLine))) (srcs : Option (List String))
    (h : cfg.finishedInTime = false) :
    (executeModel rt prog safeMode (some cfg) filename mapping srcs).2.failure
      = some (timeoutExc cfg) ∧
    (timeoutExc cfg).excType = "TimeoutError" ∧
    (timeoutExc cfg).msg = "Execution exceeded timeout of " ++ cfg.secondsRepr ++ " seconds" ∧
    (executeModel rt prog safeMode (some cfg) filename mapping srcs).1.globals
      = initNamespace ∧
    (∀ sm2, (getExecGlobalsEnv
        (executeModel rt prog safeMode (some cfg) filename mapping srcs).1 sm2).fst
      = initNamespace) := by
  refine ⟨by simp [executeModel, h], rfl, rfl, by simp [executeModel, h], ?_⟩
  intro sm2
  rw [getExecGlobalsEnv_fst]
  simp [executeModel, h]

/-- C7 witness: a timeout of 0.01 whose worker is still alive at expiry
yields the TimeoutError and a freshly reset namespace. -/
theorem execute_timeout_resets_witness :
    ({ secondsRepr := "0.01", finishedInTime := false } : TimeoutCfg).finishedInTime = false ∧
    (executeModel initRTState (fun g => { globals := g }) false
        (some { secondsRepr := "0.01", finishedInTime := false }) none none none).2.failure
      = some (timeoutExc { secondsRepr := "0.01", finishedInTime := false }) ∧
    (executeModel initRTState (fun g => { globals := g }) false
        (some { secondsRepr := "0.01", finishedInTime := false }) none none none).1.globals
      = initNamespace := by
  refine ⟨rfl, ?_, ?_⟩
  · exact (execute_timeout_resets initRTState (fun g => { globals := g }) false
      { secondsRepr := "0.01", finishedInTime := false } none none none rfl).1
  · exact (execute_timeout_resets initRTState (fun g => { globals := g }) false
      { secondsRepr := "0.01", finishedInTime := false } none none none rfl).2.2.2.1

/-- C8 counterexample: `safe_mode` defaults to False, and an execute call
with the default runs with the host's full builtins — not the restricted
allow-list — so dynamic import is not blocked; moreover the blocked
dynamic import of safe mode raises `ImportError`, and no
`ImportDisabledError` exists anywhere in the repository. -/
theorem sandbox_default_unrestricted :
    executeSafeModeDefault = false ∧
    (getExecGlobalsEnv initRTState executeSafeModeDefault).snd = BuiltinsEnv.full ∧
    dynImportOutcome (getExecGlobalsEnv initRTState executeSafeModeDefault).snd = none ∧
    BuiltinsEnv.full ≠ BuiltinsEnv.restricted safeBuiltinNames ∧
    blockedImportError = ("ImportError", "Imports are disabled in safe mode") ∧
    "ImportError" ≠ "ImportDisabledError" := by
  refine ⟨rfl, rfl, rfl, by decide, rfl, by decide⟩

/-- C8 amended: an execute call with `safe_mode=True` runs under the
fixed allow-list of safe builtins, and a dynamic import under it fails
with `ImportError("Imports are disabled in safe mode")`. -/
theorem sandbox_safe_mode_allowlist (rt : RTState) :
    (getExecGlobalsEnv rt true).snd = BuiltinsEnv.restricted safeBuiltinNames ∧
    dynImportOutcome (getExecGlobalsEnv rt true).snd
      = some ("ImportError", "Imports are disabled in safe mode") := by
  constructor <;> rfl

/-- C9 counterexample: a binding created by an execute call in safe mode
is written only to the copied exec globals and is gone from the runtime
namespace afterwards, invisible to any later call — persistence fails for
safe-mode calls. -/
theorem safe_mode_binding_lost :
    lookupG "x" ((fun g => ({ globals := setG "x" (PyVal.pyInt 1) g } : ProgResult))
        initRTState.globals).globals = some (PyVal.pyInt 1) ∧
    (executeModel initRTState (fun g => { globals := setG "x" (PyVal.pyInt 1) g })
        true none none none none).2.failure = none ∧
    lookupG "x" (executeModel initRTState
        (fun g => { globals := setG "x" (PyVal.pyInt 1) g })
        true none none none none).1.globals = none ∧
    lookupG "x" (getExecGlobalsEnv (executeModel initRTState
        (fun g => { globals := setG "x" (PyVal.pyInt 1) g })
        true none none none none).1 true).fst = none := by
  refine ⟨by decide, by decide, by decide, by decide⟩

/-- C9 amended: for execute calls with safe mode off (the default) and no
timeout expiry, every binding the executed program leaves in the globals
is retained by the runtime namespace and visible to the next call's exec
globals in either mode. -/
theorem namespace_persists_non_safe (rt : RTState) (prog : Globals → ProgResult)
    (filename : Option String) (mapping : Option (List (Nat × SourceLine)))
    (srcs : Option (List String)) (k : String) (v : PyVal)
    (h : lookupG k (prog rt.globals).globals = some v) :
    lookupG k (executeModel rt prog false none filename mapping srcs).1.globals = some v ∧
    (∀ sm2, lookupG k (getExecGlobalsEnv
        (executeModel rt prog false none filename mapping srcs).1 sm2).fst = some v) := by
  have hglob : (executeModel rt prog false none filename mapping srcs).1.globals
      = (prog rt.globals).globals := by
    have hg : prog (getExecGlobalsEnv rt false).fst = prog rt.globals := by
      rw [getExecGlobalsEnv_fst]
    cases hexc : (prog rt.globals).exc <;>
      simp only [executeModel, hg, hexc, Bool.false_eq_true, if_false]
  refine ⟨by rw [hglob]; exact h, ?_⟩
  intro sm2
  rw [getExecGlobalsEnv_fst, hglob]
  exact h

/-- C9 amended witness: a binding written by a default-mode call is
visible afterwards. -/
theorem namespace_persists_witness :
    lookupG "y" ((fun g => ({ globals := setG "y" (PyVal.pyInt 2) g } : ProgResult))
        initRTState.globals).globals = some (PyVal.pyInt 2) ∧
    lookupG "y" (executeModel initRTState
        (fun g => { globals := setG "y" (PyVal.pyInt 2) g })
        false none none none none).1.globals = some (PyVal.pyInt 2) := by
  refine ⟨by decide, ?_⟩
  exact (namespace_persists_non_safe initRTState
    (fun g => { globals := setG "y" (PyVal.pyInt 2) g })
    none none none "y" (PyVal.pyInt 2) (by decide)).1

end Plain
